import Mathlib

/-!
# The gitops serving client and the revision delete command

A shallow embedding of `pkg/serving/v1/gitops.go` (the file-backed
`knServingGitOpsClient`) and of the `RunE` body of
`pkg/kn/commands/revision/delete.go`.

* Strings are Lean strings; the functions of Go's `strings`, `path/filepath`
  and `os` packages that the client calls are modelled on character lists.
* The filesystem is a finite tree without symbolic links and without
  permissions, with the working directory of the process at its root. A path
  is walked element by element as the kernel walks it: `..` goes to the parent
  of the directory reached, and a missing or over-long element, a regular
  file on the way and a NUL byte give the error the system call gives.
* The YAML printer and the YAML/JSON decoder are parameters.
-/

namespace GitOps

/-! ## Go strings -/

/-- The pieces of a character list between occurrences of `sep`
(`strings.Split` with a one-character separator). -/
def splitOn (sep : Char) : List Char → List (List Char)
  | [] => [[]]
  | c :: cs =>
    if c = sep then [] :: splitOn sep cs
    else
      match splitOn sep cs with
      | [] => [[c]]
      | h :: t => (c :: h) :: t

/-- Whether `sub` occurs in the given character list as a contiguous block. -/
def containsChars (sub : List Char) : List Char → Bool
  | [] => sub.isEmpty
  | c :: cs => sub.isPrefixOf (c :: cs) || containsChars sub cs

/-- Go `strings.Contains(s, substr)`. -/
def Contains (s substr : String) : Bool :=
  containsChars substr.data s.data

/-- Go `strings.HasSuffix(s, suffix)`. -/
def endsWith (s suffix : String) : Bool :=
  suffix.data.reverse.isPrefixOf s.data.reverse

/-- Go `strings.Join(elems, sep)` on character lists. -/
def joinChars (sep : List Char) : List (List Char) → List Char
  | [] => []
  | [a] => a
  | a :: b :: rest => a ++ (sep ++ joinChars sep (b :: rest))

/-- Go `strings.Join(elems, sep)`. -/
def stringsJoin (elems : List String) (sep : String) : String :=
  String.mk (joinChars sep.data (elems.map String.data))

/-! ## Go path/filepath (Unix) -/

/-- The path separator. -/
def Separator : Char := '/'

/-- One element of the loop of `filepath.Clean`, on the stack of elements
written so far (most recent first): empty and `.` elements are dropped, `..`
removes the element before it when there is one that is not `..`, is dropped
at the top of a rooted path, and is kept otherwise. -/
def cleanStep (rooted : Bool) (stack : List (List Char)) (e : List Char) :
    List (List Char) :=
  if e = [] then stack
  else if e = ['.'] then stack
  else if e = ['.', '.'] then
    match stack with
    | [] => if rooted then [] else [e]
    | top :: rest => if top = ['.', '.'] then e :: stack else rest
  else e :: stack

/-- The elements of the cleaned path, first to last. -/
def cleanElems (rooted : Bool) (p : List Char) : List (List Char) :=
  ((splitOn Separator p).foldl (cleanStep rooted) []).reverse

/-- Whether a path begins with the separator. -/
def isRooted : List Char → Bool
  | c :: _ => c = Separator
  | [] => false

/-- The cleaned path before the empty result is turned into a dot. -/
def cleanChars (p : List Char) : List Char :=
  (if isRooted p then [Separator] else []) ++
    joinChars [Separator] (cleanElems (isRooted p) p)

/-- Go `filepath.Clean(path)`. -/
def Clean (path : String) : String :=
  if path.data = [] then "."
  else if cleanChars path.data = [] then "."
  else String.mk (cleanChars path.data)

/-- Go `filepath.Join(elem...)`: the elements from the first non-empty one on
are joined with the separator and the result is cleaned; with no non-empty
element the result is the empty string. -/
def Join (elem : List String) : String :=
  match elem.dropWhile (fun e => e.data = []) with
  | [] => ""
  | e :: rest => Clean (stringsJoin (e :: rest) "/")

/-- The characters after the last separator. -/
def afterLastSep (p : List Char) : List Char :=
  ((splitOn Separator p).getLast?).getD []

/-- Trailing separators removed, the first character always kept. -/
def trimTrailingSep : List Char → List Char
  | [] => []
  | c :: cs => c :: (cs.reverse.dropWhile (fun x => x = Separator)).reverse

/-- Go `os.basename(name)`, the name a `FileInfo` from `os.Lstat(name)`
reports: trailing separators are removed, then the leading directory, which
ends at the last separator before the final character. -/
def basename (name : String) : String :=
  match (trimTrailingSep name.data).reverse with
  | [] => ""
  | last :: front => String.mk (afterLastSep front.reverse ++ [last])

/-! ## Errors -/

/-- The system error numbers the model distinguishes. -/
inductive Errno where
  | ENOENT
  | ENOTDIR
  | EISDIR
  | ENOTEMPTY
  | EBUSY
  | ENAMETOOLONG
  | EINVAL
deriving DecidableEq, Repr

/-- The Go error values that occur. -/
inductive GoError where
  /-- An `*os.PathError`: operation, path and error number. -/
  | pathError (op path : String) (errno : Errno)
  /-- The status error of `apierrors.NewNotFound(groupResource, name)`. -/
  | notFound (group resource name : String)
  /-- An error of the printer or of the decoder. -/
  | codec (msg : String)
  /-- An error made by `errors.New` or by `fmt.Errorf` without verbs. -/
  | errorString (msg : String)
  /-- The sentinel `filepath.SkipDir`. -/
  | SkipDir
deriving DecidableEq, Repr

/-- Go `os.IsNotExist(err)`. -/
def IsNotExist : GoError → Bool
  | .pathError _ _ .ENOENT => true
  | _ => false

/-- Go `err.Error()` for the errors whose text the commands assemble. -/
def GoError.Error : GoError → String
  | .pathError op path errno =>
    op ++ " " ++ path ++ ": " ++
      (match errno with
       | .ENOENT => "no such file or directory"
       | .ENOTDIR => "not a directory"
       | .EISDIR => "is a directory"
       | .ENOTEMPTY => "directory not empty"
       | .EBUSY => "device or resource busy"
       | .ENAMETOOLONG => "file name too long"
       | .EINVAL => "invalid argument")
  | .notFound group resource name =>
    resource ++ "." ++ group ++ " \"" ++ name ++ "\" not found"
  | .codec msg => msg
  | .errorString msg => msg
  | .SkipDir => "skip this directory"

/-! ## The filesystem -/

/-- The entries of a directory: each entry is a regular file with its content
or a directory with its own entries. The entries stand in the order of their
names, the order in which `filepath.Walk` visits them. -/
inductive Forest where
  | nil
  | file (name : String) (content : String) (rest : Forest)
  | dir (name : String) (children : Forest) (rest : Forest)
deriving DecidableEq, Repr

/-- What a path resolves to. -/
inductive Node where
  | file (content : String)
  | dir (children : Forest)
deriving DecidableEq, Repr

/-- Byte-wise order of names, the order of `sort.Strings`. -/
def charsLt : List Char → List Char → Bool
  | _, [] => false
  | [], _ :: _ => true
  | a :: as, b :: bs => decide (a.toNat < b.toNat) || (decide (a = b) && charsLt as bs)

/-- Order of entry names. -/
def nameLt (a b : String) : Bool := charsLt a.data b.data

/-- The entry with the given name in front of the given entries. -/
def Forest.cons (name : String) : Node → Forest → Forest
  | .file content, rest => .file name content rest
  | .dir children, rest => .dir name children rest

/-- The first entry with the given name. -/
def Forest.find (name : String) : Forest → Option Node
  | .nil => none
  | .file n content rest => if n = name then some (.file content) else rest.find name
  | .dir n children rest => if n = name then some (.dir children) else rest.find name

/-- The entries without those of the given name. -/
def Forest.erase (name : String) : Forest → Forest
  | .nil => .nil
  | .file n content rest =>
    if n = name then rest.erase name else .file n content (rest.erase name)
  | .dir n children rest =>
    if n = name then rest.erase name else .dir n children (rest.erase name)

/-- A new entry at its place in the order of names. -/
def Forest.insert (name : String) (node : Node) : Forest → Forest
  | .nil => Forest.cons name node .nil
  | .file n content rest =>
    if nameLt name n then Forest.cons name node (.file n content rest)
    else .file n content (rest.insert name node)
  | .dir n children rest =>
    if nameLt name n then Forest.cons name node (.dir n children rest)
    else .dir n children (rest.insert name node)

/-- The entry of the given name set to the given node. -/
def Forest.put (name : String) (node : Node) (f : Forest) : Forest :=
  (f.erase name).insert name node

/-- The node a list of path elements leads to from a node. -/
def Node.lookup : List String → Node → Except Errno Node
  | [], n => .ok n
  | _ :: _, .file _ => .error .ENOTDIR
  | c :: cs, .dir f =>
    match f.find c with
    | none => .error .ENOENT
    | some n => Node.lookup cs n

/-- The entries after the node at the given path elements is replaced by what
`g` makes of it (`none` stands for an absent entry). Every directory on the
way must exist; the root itself cannot be replaced. -/
def Forest.writeAt (g : Option Node → Except Errno (Option Node)) :
    List String → Forest → Except Errno Forest
  | [], f =>
    match g (some (.dir f)) with
    | .error e => .error e
    | .ok _ => .error .EBUSY
  | [c], f =>
    match g (f.find c) with
    | .error e => .error e
    | .ok (some n) => .ok (f.put c n)
    | .ok none => .ok (f.erase c)
  | c :: c2 :: cs, f =>
    match f.find c with
    | none => .error .ENOENT
    | some (.file _) => .error .ENOTDIR
    | some (.dir children) =>
      match Forest.writeAt g (c2 :: cs) children with
      | .error e => .error e
      | .ok children2 => .ok (f.put c (.dir children2))

/-- The number of bytes of a character in UTF-8. -/
def utf8Len (c : Char) : Nat :=
  if c.toNat < 128 then 1
  else if c.toNat < 2048 then 2
  else if c.toNat < 65536 then 3
  else 4

/-- The number of bytes of a character list in UTF-8. -/
def byteLenChars : List Char → Nat
  | [] => 0
  | c :: cs => utf8Len c + byteLenChars cs

/-- The number of bytes of a Go string. -/
def byteLen (s : String) : Nat := byteLenChars s.data

/-- The longest name of a directory entry, in bytes. -/
def NAME_MAX : Nat := 255

/-- The length a path must stay below, in bytes. -/
def PATH_MAX : Nat := 4096

/-- The elements of a path as the kernel reads them: the pieces between
separators, empty pieces and dots included. -/
def pathElems (path : String) : List String :=
  (splitOn Separator path.data).map String.mk

/-- The walk of the kernel along the elements of a path, from the directory
with the absolute name `cur` (the working directory is the root of the tree):
before each element the place reached must be a directory; an empty element
and `.` stay there, `..` goes to the parent (the root is its own parent), a
name of at most `NAME_MAX` bytes goes to the entry of that name, which is
looked at only when a further element follows. The result is the absolute
name of the place the path leads to, which need not exist. -/
def Forest.locate (root : Forest) : List String → List String → Except Errno (List String)
  | [], cur => .ok cur
  | e :: rest, cur =>
    match Node.lookup cur (.dir root) with
    | .error err => .error err
    | .ok (.file _) => .error .ENOTDIR
    | .ok (.dir _) =>
      if e = "" ∨ e = "." then root.locate rest cur
      else if e = ".." then root.locate rest cur.dropLast
      else if byteLen e > NAME_MAX then .error .ENAMETOOLONG
      else root.locate rest (cur ++ [e])

/-- The directories on the elements of a path are made one after the other
where they are missing, as `os.MkdirAll` does; what was made before an error
stays. -/
def Forest.mkdirAll : List String → List String → Forest → Option Errno × Forest
  | [], _, f => (none, f)
  | e :: rest, cur, f =>
    if e = "" ∨ e = "." then Forest.mkdirAll rest cur f
    else if e = ".." then Forest.mkdirAll rest cur.dropLast f
    else if byteLen e > NAME_MAX then (some .ENAMETOOLONG, f)
    else
      match Node.lookup (cur ++ [e]) (.dir f) with
      | .ok (.dir _) => Forest.mkdirAll rest (cur ++ [e]) f
      | .ok (.file _) => (some .ENOTDIR, f)
      | .error .ENOENT =>
        match Forest.writeAt (fun _ => .ok (some (.dir .nil))) (cur ++ [e]) f with
        | .ok f2 => Forest.mkdirAll rest (cur ++ [e]) f2
        | .error err => (some err, f)
      | .error err => (some err, f)

/-! ## Go os -/

/-- What is wrong with a path before any walk: a NUL byte (refused by Go
before the system call), the empty path, a path of `PATH_MAX` bytes or more. -/
def os.checkPath (path : String) : Option Errno :=
  if path.data.contains (Char.ofNat 0) then some .EINVAL
  else if path.data = [] then some .ENOENT
  else if byteLen path ≥ PATH_MAX then some .ENAMETOOLONG
  else none

/-- The absolute name of the place a path leads to. -/
def os.target (fs : Forest) (path : String) : Except Errno (List String) :=
  match os.checkPath path with
  | some e => .error e
  | none => fs.locate (pathElems path) []

/-- The node a path leads to, or the error number of the system call. -/
def os.lookupPath (fs : Forest) (path : String) : Except Errno Node :=
  match os.target fs path with
  | .error e => .error e
  | .ok cur => Node.lookup cur (.dir fs)

/-- The node at a path, or the `*os.PathError` of the given operation. -/
def os.resolve (op : String) (fs : Forest) (path : String) : Except GoError Node :=
  match os.lookupPath fs path with
  | .error e => .error (.pathError op path e)
  | .ok n => .ok n

/-- Go `os.Lstat(name)`. -/
def os.Lstat (fs : Forest) (name : String) : Except GoError Node :=
  os.resolve "lstat" fs name

/-- Go `os.Stat(name)`; the tree has no symbolic links. -/
def os.Stat (fs : Forest) (name : String) : Except GoError Node :=
  os.resolve "stat" fs name

/-- Go `os.Open(name)`: the handle is the node opened; a directory can be
opened, reading from it fails. -/
def os.Open (fs : Forest) (name : String) : Except GoError Node :=
  os.resolve "open" fs name

/-- The entries after a change of the node at a path. -/
def os.change (op : String) (g : Option Node → Except Errno (Option Node))
    (fs : Forest) (path : String) : Except GoError Forest :=
  match os.target fs path with
  | .error e => .error (.pathError op path e)
  | .ok cur =>
    match Forest.writeAt g cur fs with
    | .error e => .error (.pathError op path e)
    | .ok fs2 => .ok fs2

/-- What `os.Create` makes of the node at its path: a regular file is
truncated, an absent one is created empty, a directory is refused. -/
def createNode : Option Node → Except Errno (Option Node)
  | some (.dir _) => .error .EISDIR
  | _ => .ok (some (.file ""))

/-- What `os.Remove` makes of the node at its path: a regular file or an
empty directory goes, an absent path and a directory with entries are errors. -/
def removeNode : Option Node → Except Errno (Option Node)
  | none => .error .ENOENT
  | some (.file _) => .ok none
  | some (.dir .nil) => .ok none
  | some (.dir _) => .error .ENOTEMPTY

/-- Go `os.Create(name)`. -/
def os.Create (fs : Forest) (name : String) : Except GoError Forest :=
  os.change "open" createNode fs name

/-- A write of the whole content through the handle `os.Create` returned. -/
def os.Write (fs : Forest) (name : String) (content : String) : Forest :=
  match os.change "write" (fun _ => .ok (some (.file content))) fs name with
  | .error _ => fs
  | .ok fs2 => fs2

/-- Go `os.Remove(name)`. -/
def os.Remove (fs : Forest) (name : String) : Except GoError Forest :=
  os.change "remove" removeNode fs name

/-- Go `os.MkdirAll(path, perm)`: the error and the tree it leaves. -/
def os.MkdirAll (fs : Forest) (path : String) : Option GoError × Forest :=
  match os.checkPath path with
  | some e => (some (.pathError "mkdir" path e), fs)
  | none =>
    match Forest.mkdirAll (pathElems path) [] fs with
    | (some e, fs2) => (some (.pathError "mkdir" path e), fs2)
    | (none, fs2) => (none, fs2)

/-! ## Services -/

/-- A `servingv1.Service`: type metadata, object metadata and the rest of the
object as an uninterpreted payload. -/
structure Service where
  APIVersion : String
  Kind : String
  Name : String
  Namespace : String
  Spec : String
deriving DecidableEq, Repr

/-- A `servingv1.ServiceList`. -/
structure ServiceList where
  APIVersion : String
  Kind : String
  Items : List Service
deriving DecidableEq, Repr

/-- Modelled from the spec: `updateServingGvk` is not among the sources; it
stamps the object with the canonical kind and version of the store, whatever
its type metadata was. -/
def updateServingGvk (svc : Service) : Service :=
  { svc with APIVersion := "serving.knative.dev/v1", Kind := "Service" }

/-- The decoder made by `yaml.NewYAMLOrJSONDecoder`, from file content. -/
abbrev Decoder := String → Except GoError Service

/-! ## pkg/serving/v1/gitops.go -/

/-- The message of every unsupported operation. -/
def operation_not_suported_error : String :=
  "this operation is not supported in gitops mode"

/-- The directory segment of services. -/
def ksvc_kind : String := "ksvc"

/-- The client: storage root, namespace and the YAML printer. -/
structure knServingGitOpsClient where
  dir : String
  namespace_ : String
  printer : Service → Except GoError String

/-- Result of an operation that may also end in a run-time panic. -/
inductive Outcome (α : Type) where
  | ok (value : α)
  | error (err : GoError)
  | fault (msg : String)
deriving DecidableEq, Repr

/-- The path of the file of a service. -/
def knServingGitOpsClient.getKsvcFilePath (cl : knServingGitOpsClient) (name : String) :
    String :=
  Join [cl.dir, cl.namespace_, ksvc_kind, name ++ ".yaml"]

/-- Go `servingv1.Resource(resource)` gives the group resource of the serving
group; `apierrors.NewNotFound` carries it with the name. -/
def NewNotFound (resource name : String) : GoError :=
  .notFound "serving.knative.dev" resource name

/-- The service decoded from the file at a path. -/
def getServiceFromFile (dec : Decoder) (fs : Forest) (filePath name : String) :
    Except GoError Service :=
  match os.Open fs filePath with
  | .error err =>
    if IsNotExist err then .error (NewNotFound "services" name)
    else .error err
  | .ok (.dir _) => .error (.pathError "read" filePath .EISDIR)
  | .ok (.file content) =>
    match dec content with
    | .error err => .error err
    | .ok svc => .ok (updateServingGvk svc)

/-- The service of the given name. -/
def knServingGitOpsClient.GetService (cl : knServingGitOpsClient) (dec : Decoder)
    (fs : Forest) (name : String) : Except GoError Service :=
  getServiceFromFile dec fs (cl.getKsvcFilePath name) name

/-! ### filepath.Walk -/

/-- What `os.FileInfo` tells the walk function. -/
structure FileInfo where
  Name : String
  IsDir : Bool
deriving DecidableEq, Repr

/-- One call of a walk function: it returns a new state and an error, or it
panics. -/
inductive Step (σ : Type) where
  | done (st : σ) (err : Option GoError)
  | fault (msg : String)
deriving DecidableEq, Repr

/-- A `filepath.WalkFunc` over a state: path, file info (absent when the walk
could not stat the path) and the error of the walk. -/
abbrev WalkFunc (σ : Type) := σ → String → Option FileInfo → Option GoError → Step σ

/-- The loop of `walk` over the entries of the directory at `path`, with the
`walk` of each entry in place: a regular file is handed to the function and
any error it returns, `SkipDir` too, ends the loop with that error; a
directory is handed to the function, then its entries are walked, and
`SkipDir` from either only skips that directory. -/
def walkNames {σ : Type} (fn : WalkFunc σ) (path : String) : Forest → σ → Step σ
  | .nil, st => .done st none
  | .file name _ rest, st =>
    match fn st (Join [path, name]) (some ⟨name, false⟩) none with
    | .fault m => .fault m
    | .done st1 (some err) => .done st1 (some err)
    | .done st1 none => walkNames fn path rest st1
  | .dir name children rest, st =>
    match fn st (Join [path, name]) (some ⟨name, true⟩) none with
    | .fault m => .fault m
    | .done st1 (some err) =>
      if err = .SkipDir then walkNames fn path rest st1 else .done st1 (some err)
    | .done st1 none =>
      match walkNames fn (Join [path, name]) children st1 with
      | .fault m => .fault m
      | .done st2 (some err) =>
        if err = .SkipDir then walkNames fn path rest st2 else .done st2 (some err)
      | .done st2 none => walkNames fn path rest st2

/-- Go `walk(path, info, walkFn)` at the root. -/
def walkRoot {σ : Type} (fn : WalkFunc σ) (path : String) (node : Node) (st : σ) : Step σ :=
  match node with
  | .file _ => fn st path (some ⟨basename path, false⟩) none
  | .dir children =>
    match fn st path (some ⟨basename path, true⟩) none with
    | .fault m => .fault m
    | .done st1 (some err) => .done st1 (some err)
    | .done st1 none => walkNames fn path children st1

/-- Go `filepath.Walk(root, walkFn)`: when the root cannot be stat-ed the
function is called once with no file info and the error; `SkipDir` as the
final error counts as success. -/
def Walk {σ : Type} (fs : Forest) (root : String) (fn : WalkFunc σ) (st : σ) : Step σ :=
  let r :=
    match os.Lstat fs root with
    | .error err => fn st root none (some err)
    | .ok node => walkRoot fn root node st
  match r with
  | .fault m => .fault m
  | .done st1 (some err) => if err = .SkipDir then .done st1 none else .done st1 (some err)
  | .done st1 none => .done st1 none

/-- The walk function of `ListServices`; the state is the slice `services`.
The function reads the file info without looking at the error it was handed. -/
def listServicesFn (dec : Decoder) (fs : Forest) : WalkFunc (List Service) :=
  fun services path info _err =>
    match info with
    | none => .fault "invalid memory address or nil pointer dereference"
    | some info =>
      if info.IsDir then .done services none
      else if !Contains info.Name ".yaml" then .done services none
      else if !Contains path ksvc_kind then .done services (some .SkipDir)
      else
        match getServiceFromFile dec fs path "" with
        | .error err => .done services (some err)
        | .ok svc => .done (services ++ [updateServingGvk svc]) none

/-- What the walk function of `ListServices` adds to the slice for the file
at `path`: the service decoded from it, stamped, when it decodes. -/
def decodeAt (dec : Decoder) (fs : Forest) (path : String) : Option Service :=
  match getServiceFromFile dec fs path "" with
  | .error _ => none
  | .ok svc => some (updateServingGvk svc)

/-- The walk function of `ListServices` with a record: the state holds, next
to the slice `services`, every path handed to `getServiceFromFile`, in the
order of the calls. -/
def listServicesTraceFn (dec : Decoder) (fs : Forest) :
    WalkFunc (List Service × List String) :=
  fun st path info _err =>
    match info with
    | none => .fault "invalid memory address or nil pointer dereference"
    | some info =>
      if info.IsDir then .done st none
      else if !Contains info.Name ".yaml" then .done st none
      else if !Contains path ksvc_kind then .done st (some .SkipDir)
      else
        match getServiceFromFile dec fs path "" with
        | .error err => .done (st.1, st.2 ++ [path]) (some err)
        | .ok svc => .done (st.1 ++ [updateServingGvk svc], st.2 ++ [path]) none

/-- Two runs of a walk function agree: both return, with related states and
the same error, or both panic with the same message. -/
def Step.related {σ τ : Type} (R : σ → τ → Prop) : Step σ → Step τ → Prop
  | .done a e, .done b e2 => R a b ∧ e = e2
  | .fault m, .fault m2 => m = m2
  | _, _ => False

/-- The root of the scan. -/
def knServingGitOpsClient.scanRoot (cl : knServingGitOpsClient) : String :=
  if cl.namespace_ = "" then cl.dir else Join [cl.dir, cl.namespace_]

/-- The services in the tree of the client. -/
def knServingGitOpsClient.ListServices (cl : knServingGitOpsClient) (dec : Decoder)
    (fs : Forest) : Outcome ServiceList :=
  match Walk fs cl.scanRoot (listServicesFn dec fs) [] with
  | .fault m => .fault m
  | .done _ (some err) => .error err
  | .done services none => .ok { APIVersion := "v1", Kind := "List", Items := services }

/-- The run of `ListServices` with the record of the paths handed to
`getServiceFromFile`. -/
def knServingGitOpsClient.ListServicesTrace (cl : knServingGitOpsClient) (dec : Decoder)
    (fs : Forest) : Outcome ServiceList × List String :=
  match Walk fs cl.scanRoot (listServicesTraceFn dec fs) ([], []) with
  | .fault m => (.fault m, [])
  | .done st (some err) => (.error err, st.2)
  | .done st none => (.ok { APIVersion := "v1", Kind := "List", Items := st.1 }, st.2)

/-- The service is written to its file; the directory is made first when it
is missing, and what `os.MkdirAll` returns is not looked at. -/
def knServingGitOpsClient.CreateService (cl : knServingGitOpsClient) (service : Service)
    (fs : Forest) : Option GoError × Forest :=
  let namespaceDir := Join [cl.dir, cl.namespace_, ksvc_kind]
  let fs1 :=
    match os.Stat fs namespaceDir with
    | .error err =>
      if IsNotExist err then (os.MkdirAll fs namespaceDir).2 else fs
    | .ok _ => fs
  match os.Create fs1 (cl.getKsvcFilePath service.Name) with
  | .error err => (some err, fs1)
  | .ok fs2 =>
    match cl.printer (updateServingGvk service) with
    | .error err => (some err, fs2)
    | .ok content => (none, os.Write fs2 (cl.getKsvcFilePath service.Name) content)

/-- The service is written when a service of its name can be read. -/
def knServingGitOpsClient.UpdateService (cl : knServingGitOpsClient) (dec : Decoder)
    (service : Service) (fs : Forest) : Option GoError × Forest :=
  match cl.GetService dec fs service.Name with
  | .error err => (some err, fs)
  | .ok _ => cl.CreateService service fs

/-- A `time.Duration`, in nanoseconds. -/
abbrev Duration := Int

/-- The file of the service is removed. -/
def knServingGitOpsClient.DeleteService (cl : knServingGitOpsClient) (serviceName : String)
    (_timeout : Duration) (fs : Forest) : Option GoError × Forest :=
  match os.Remove fs (cl.getKsvcFilePath serviceName) with
  | .error err => (some err, fs)
  | .ok fs2 => (none, fs2)

/-- Go `fmt.Errorf(format)` for a format without verbs. -/
def fmt.Errorf (format : String) : GoError := .errorString format

/-- Objects of the kinds the client does not serve. -/
structure Revision where
  Name : String
deriving DecidableEq, Repr

/-- A configuration. -/
structure Configuration where
  Name : String
deriving DecidableEq, Repr

/-- A route. -/
structure Route where
  Name : String
deriving DecidableEq, Repr

/-- A `watch.Interface`. -/
structure WatchInterface where
  id : Nat
deriving DecidableEq, Repr

/-- A `ListConfig` argument. -/
structure ListConfig where
  selector : String
deriving DecidableEq, Repr

/-! The unsupported operations: a Go pair of result and error, and the
filesystem, which none of them touches. -/

/-- WatchService is not supported by this client. -/
def knServingGitOpsClient.WatchService (_cl : knServingGitOpsClient) (_name : String)
    (_timeout : Duration) (fs : Forest) : (Option WatchInterface × Option GoError) × Forest :=
  ((none, some (fmt.Errorf operation_not_suported_error)), fs)

/-- WatchRevision is not supported by this client. -/
def knServingGitOpsClient.WatchRevision (_cl : knServingGitOpsClient) (_name : String)
    (_timeout : Duration) (fs : Forest) : (Option WatchInterface × Option GoError) × Forest :=
  ((none, some (fmt.Errorf operation_not_suported_error)), fs)

/-- ApplyService is not supported by this client. -/
def knServingGitOpsClient.ApplyService (_cl : knServingGitOpsClient)
    (_modifiedService : Service) (fs : Forest) : (Bool × Option GoError) × Forest :=
  ((false, some (fmt.Errorf operation_not_suported_error)), fs)

/-- GetConfiguration is not supported by this client. -/
def knServingGitOpsClient.GetConfiguration (_cl : knServingGitOpsClient) (_name : String)
    (fs : Forest) : (Option Configuration × Option GoError) × Forest :=
  ((none, some (fmt.Errorf operation_not_suported_error)), fs)

/-- GetRevision is not supported by this client. -/
def knServingGitOpsClient.GetRevision (_cl : knServingGitOpsClient) (_name : String)
    (fs : Forest) : (Option Revision × Option GoError) × Forest :=
  ((none, some (fmt.Errorf operation_not_suported_error)), fs)

/-- GetBaseRevision is not supported by this client. -/
def knServingGitOpsClient.GetBaseRevision (_cl : knServingGitOpsClient) (_service : Service)
    (fs : Forest) : (Option Revision × Option GoError) × Forest :=
  ((none, some (fmt.Errorf operation_not_suported_error)), fs)

/-- CreateRevision is not supported by this client. -/
def knServingGitOpsClient.CreateRevision (_cl : knServingGitOpsClient) (_revision : Revision)
    (fs : Forest) : Option GoError × Forest :=
  (some (fmt.Errorf operation_not_suported_error), fs)

/-- UpdateRevision is not supported by this client. -/
def knServingGitOpsClient.UpdateRevision (_cl : knServingGitOpsClient) (_revision : Revision)
    (fs : Forest) : Option GoError × Forest :=
  (some (fmt.Errorf operation_not_suported_error), fs)

/-- DeleteRevision is not supported by this client. -/
def knServingGitOpsClient.DeleteRevision (_cl : knServingGitOpsClient) (_name : String)
    (_timeout : Duration) (fs : Forest) : Option GoError × Forest :=
  (some (fmt.Errorf operation_not_suported_error), fs)

/-- ListRevisions is not supported by this client. -/
def knServingGitOpsClient.ListRevisions (_cl : knServingGitOpsClient)
    (_config : List ListConfig) (fs : Forest) :
    (Option (List Revision) × Option GoError) × Forest :=
  ((none, some (fmt.Errorf operation_not_suported_error)), fs)

/-- GetRoute is not supported by this client. -/
def knServingGitOpsClient.GetRoute (_cl : knServingGitOpsClient) (_name : String)
    (fs : Forest) : (Option Route × Option GoError) × Forest :=
  ((none, some (fmt.Errorf operation_not_suported_error)), fs)

/-- ListRoutes is not supported by this client. -/
def knServingGitOpsClient.ListRoutes (_cl : knServingGitOpsClient)
    (_config : List ListConfig) (fs : Forest) :
    (Option (List Route) × Option GoError) × Forest :=
  ((none, some (fmt.Errorf operation_not_suported_error)), fs)

/-! ## pkg/kn/commands/revision/delete.go -/

/-- The wait flags the command reads. -/
structure WaitFlags where
  Wait : Bool
  TimeoutInSeconds : Int
deriving DecidableEq, Repr

/-- Go `time.Second`. -/
def Second : Duration := 1000000000

/-- A value as a 64-bit signed integer. -/
def toInt64 (x : Int) : Int := (x + 2 ^ 63) % 2 ^ 64 - 2 ^ 63

/-- The timeout handed to `DeleteRevision`. -/
def deleteTimeout (waitFlags : WaitFlags) : Duration :=
  if waitFlags.Wait then toInt64 (toInt64 waitFlags.TimeoutInSeconds * Second) else 0

/-- The serving client as the command sees it: `DeleteRevision` acts on the
state `σ` behind the client and returns an error or none. -/
structure KnServingClient (σ : Type) where
  DeleteRevision : String → Duration → σ → Option GoError × σ

/-- The variables of the loop of the command: the slice `errs`, what was
written to the output, the state behind the client, and a record of the calls
of `DeleteRevision` made so far. -/
structure DeleteState (σ : Type) where
  errs : List String
  out : String
  world : σ
  calls : List (String × Duration)

/-- What the command leaves: the error it returns, its output, the state
behind the client and the calls of `DeleteRevision` it made. -/
structure DeleteResult (σ : Type) where
  err : Option GoError
  out : String
  world : σ
  calls : List (String × Duration)

/-- Go `errors.New(text)`. -/
def errors.New (text : String) : GoError := .errorString text

/-- The line printed for a deleted revision. -/
def deletedLine (name namespace_ : String) : String :=
  "Revision '" ++ name ++ "' deleted in namespace '" ++ namespace_ ++ "'.\n"

/-- The loop over the arguments. -/
def deleteLoop {σ : Type} (client : KnServingClient σ) (waitFlags : WaitFlags)
    (namespace_ : String) : List String → DeleteState σ → DeleteState σ
  | [], s => s
  | name :: rest, s =>
    let timeout := deleteTimeout waitFlags
    match client.DeleteRevision name timeout s.world with
    | (some err, w) =>
      deleteLoop client waitFlags namespace_ rest
        { errs := s.errs ++ [err.Error], out := s.out, world := w,
          calls := s.calls ++ [(name, timeout)] }
    | (none, w) =>
      deleteLoop client waitFlags namespace_ rest
        { errs := s.errs, out := s.out ++ deletedLine name namespace_, world := w,
          calls := s.calls ++ [(name, timeout)] }

/-- The `RunE` function of the delete command. -/
def RunE {σ : Type} (GetNamespace : Except GoError String)
    (NewServingClient : String → Except GoError (KnServingClient σ))
    (waitFlags : WaitFlags) (args : List String) (w : σ) : DeleteResult σ :=
  if args.length < 1 then
    { err := some (errors.New "'kn revision delete' requires one or more revision name"),
      out := "", world := w, calls := [] }
  else
    match GetNamespace with
    | .error err => { err := some err, out := "", world := w, calls := [] }
    | .ok namespace_ =>
      match NewServingClient namespace_ with
      | .error err => { err := some err, out := "", world := w, calls := [] }
      | .ok client =>
        let s := deleteLoop client waitFlags namespace_ args
          { errs := [], out := "", world := w, calls := [] }
        if s.errs.length > 0 then
          { err := some (errors.New ("Error: " ++ stringsJoin s.errs "\nError: ")),
            out := s.out, world := s.world, calls := s.calls }
        else { err := none, out := s.out, world := s.world, calls := s.calls }

/-! ### What the command is said to do -/

/-- The name and the result of each call when `DeleteRevision` is called once
per name, in the order of the names, each call on the state the call before
it left. -/
def callOutcomes {σ : Type} (client : KnServingClient σ) (timeout : Duration) :
    List String → σ → List (String × Option GoError)
  | [], _ => []
  | name :: rest, w =>
    (name, (client.DeleteRevision name timeout w).1) ::
      callOutcomes client timeout rest (client.DeleteRevision name timeout w).2

/-- The messages of the calls that failed, in order. -/
def failedMessages (outcomes : List (String × Option GoError)) : List String :=
  outcomes.filterMap (fun o => o.2.map GoError.Error)

/-- The names of the calls that succeeded, in order. -/
def deletedNames (outcomes : List (String × Option GoError)) : List String :=
  outcomes.filterMap (fun o => if o.2 = none then some o.1 else none)

/-- The strings of a list one after the other. -/
def concatAll : List String → String
  | [] => ""
  | a :: rest => a ++ concatAll rest

/-! ## Sample data -/

/-- A printer that writes the five fields of a service on five lines. -/
def linePrinter (s : Service) : Except GoError String :=
  .ok (stringsJoin [s.APIVersion, s.Kind, s.Name, s.Namespace, s.Spec] "\n")

/-- The decoder of the five-line format. -/
def lineDecoder : Decoder := fun content =>
  match (splitOn '\n' content.data).map String.mk with
  | [a, k, n, ns, sp] => .ok ⟨a, k, n, ns, sp⟩
  | _ => .error (.codec "cannot unmarshal")

/-- A client on the storage root `repo` for the namespace `ns1`. -/
def ns1Client : knServingGitOpsClient := ⟨"repo", "ns1", linePrinter⟩

/-- A client on the storage root `repo` for all namespaces. -/
def allClient : knServingGitOpsClient := ⟨"repo", "", linePrinter⟩

/-- The service `svc1` of namespace `ns1` with spec `X`. -/
def svc1 : Service := ⟨"", "", "svc1", "ns1", "X"⟩

/-- The content of the file of `svc1`. -/
def svc1Content : String := "serving.knative.dev/v1\nService\nsvc1\nns1\nX"

/-- The store after `svc1` was created in the empty tree. -/
def storeSvc1 : Forest :=
  .dir "repo" (.dir "ns1" (.dir "ksvc" (.file "svc1.yaml" svc1Content .nil) .nil) .nil) .nil

/-- The store of `svc1` with a file `config.yaml` next to the `ksvc`
directory. -/
def storeWithConfig : Forest :=
  .dir "repo"
    (.dir "ns1"
      (.file "config.yaml" "debug: true"
        (.dir "ksvc" (.file "svc1.yaml" svc1Content .nil) .nil))
      .nil)
    .nil

/-- The store after `svc1` was deleted again: the directories stay. -/
def storeEmptyKsvc : Forest :=
  .dir "repo" (.dir "ns1" (.dir "ksvc" .nil .nil) .nil) .nil

/-- The tree with only `repo/ns1/config.yaml`. -/
def storeConfigOnly : Forest :=
  .dir "repo" (.dir "ns1" (.file "config.yaml" "debug: true" .nil) .nil) .nil

/-- The service `svc1` with the spec `Y`. -/
def svc1Y : Service := ⟨"v0", "Nothing", "svc1", "ns1", "Y"⟩

/-- The store after `svc1` was overwritten with the spec `Y`. -/
def storeSvc1Y : Forest :=
  .dir "repo"
    (.dir "ns1"
      (.dir "ksvc" (.file "svc1.yaml" "serving.knative.dev/v1\nService\nsvc1\nns1\nY" .nil) .nil)
      .nil)
    .nil

/-- A store with one service file below a directory `decoy`, at
`repo/ns1/decoy/ksvc/x.yaml`. -/
def storeDecoy : Forest :=
  .dir "repo"
    (.dir "ns1"
      (.dir "decoy" (.dir "ksvc" (.file "x.yaml" svc1Content .nil) .nil) .nil)
      .nil)
    .nil

/-- The store of the directory `decoy` with a file `a.yaml` next to its
`ksvc` directory. -/
def storeDecoyYaml : Forest :=
  .dir "repo"
    (.dir "ns1"
      (.dir "decoy"
        (.file "a.yaml" "a: b" (.dir "ksvc" (.file "x.yaml" svc1Content .nil) .nil))
        .nil)
      .nil)
    .nil

/-- A store whose `ksvc` directory holds a backup file `svc.yaml.bak`. -/
def storeBackup : Forest :=
  .dir "repo"
    (.dir "ns1" (.dir "ksvc" (.file "svc.yaml.bak" svc1Content .nil) .nil) .nil)
    .nil

/-- A store whose `ksvc` directory holds `svc1` and a text file
`notes.yaml.txt`. -/
def storeNotes : Forest :=
  .dir "repo"
    (.dir "ns1"
      (.dir "ksvc"
        (.file "notes.yaml.txt" "remember the milk"
          (.file "svc1.yaml" svc1Content .nil))
        .nil)
      .nil)
    .nil

/-- A store whose file `broken.yaml` holds no service. -/
def storeBroken : Forest :=
  .dir "repo" (.dir "ns1" (.dir "ksvc" (.file "broken.yaml" "garbage" .nil) .nil) .nil) .nil

/-- A store in which `repo/ns1/ksvc/x.yaml` is a directory. -/
def storeYamlDir : Forest :=
  .dir "repo" (.dir "ns1" (.dir "ksvc" (.dir "x.yaml" .nil .nil) .nil) .nil) .nil

/-- A store in which `repo/ns1/ksvc` is a regular file. -/
def storeKsvcIsFile : Forest :=
  .dir "repo" (.dir "ns1" (.file "ksvc" "" .nil) .nil) .nil

/-- A client of the command that cannot delete the revision `bad` and counts
its calls. -/
def countingClient : KnServingClient Nat :=
  { DeleteRevision := fun name _ n =>
      if name = "bad" then (some (.errorString "no such revision"), n + 1)
      else (none, n + 1) }

deriving instance DecidableEq for Except

/-! # Theorems -/

/-! ## The revision delete command -/

theorem failedMessages_eq_nil_iff (outs : List (String × Option GoError)) :
    failedMessages outs = [] ↔ ∀ o ∈ outs, o.2 = none := by
  induction outs with
  | nil => simp [failedMessages]
  | cons o rest ih =>
    obtain ⟨n, r⟩ := o
    cases r with
    | none =>
      have h : failedMessages ((n, none) :: rest) = failedMessages rest := by
        simp [failedMessages, List.filterMap_cons]
      rw [h, ih]
      simp
    | some e =>
      have h : failedMessages ((n, some e) :: rest) = e.Error :: failedMessages rest := by
        simp [failedMessages, List.filterMap_cons]
      rw [h]
      simp

theorem deleteLoop_spec {σ : Type} (client : KnServingClient σ) (waitFlags : WaitFlags)
    (ns : String) (args : List String) (s : DeleteState σ) :
    (deleteLoop client waitFlags ns args s).errs =
        s.errs ++ failedMessages (callOutcomes client (deleteTimeout waitFlags) args s.world) ∧
    (deleteLoop client waitFlags ns args s).out =
        s.out ++ concatAll
          ((deletedNames (callOutcomes client (deleteTimeout waitFlags) args s.world)).map
            (fun name => deletedLine name ns)) ∧
    (deleteLoop client waitFlags ns args s).calls =
        s.calls ++ args.map (fun name => (name, deleteTimeout waitFlags)) := by
  induction args generalizing s with
  | nil => simp [deleteLoop, callOutcomes, failedMessages, deletedNames, concatAll]
  | cons name rest ih =>
    rcases hcall : client.DeleteRevision name (deleteTimeout waitFlags) s.world with ⟨r, w⟩
    cases r with
    | none =>
      simp only [deleteLoop, callOutcomes, hcall]
      obtain ⟨h1, h2, h3⟩ := ih
        { errs := s.errs, out := s.out ++ deletedLine name ns, world := w,
          calls := s.calls ++ [(name, deleteTimeout waitFlags)] }
      refine ⟨?_, ?_, ?_⟩
      · rw [h1]; simp [failedMessages, List.filterMap_cons]
      · rw [h2]; simp [deletedNames, List.filterMap_cons, concatAll, String.append_assoc]
      · rw [h3]; simp
    | some e =>
      simp only [deleteLoop, callOutcomes, hcall]
      obtain ⟨h1, h2, h3⟩ := ih
        { errs := s.errs ++ [e.Error], out := s.out, world := w,
          calls := s.calls ++ [(name, deleteTimeout waitFlags)] }
      refine ⟨?_, ?_, ?_⟩
      · rw [h1]; simp [failedMessages, List.filterMap_cons]
      · rw [h2]; simp [deletedNames, List.filterMap_cons]
      · rw [h3]; simp

/-- C7: with at least one name, a namespace and a client, the delete command
calls `DeleteRevision` once per name in the order of the arguments, whatever
earlier calls returned; it returns no error exactly when every call
succeeded; otherwise its message is `Error: ` followed by the messages of the
failed calls in order, joined by a line break and `Error: `; and it prints the
line of a deleted revision for exactly the names whose call succeeded. -/
theorem RunE_aggregates_errors {σ : Type} (GetNamespace : Except GoError String)
    (NewServingClient : String → Except GoError (KnServingClient σ))
    (waitFlags : WaitFlags) (args : List String) (w : σ)
    (ns : String) (client : KnServingClient σ)
    (hargs : args ≠ []) (hns : GetNamespace = .ok ns) (hcl : NewServingClient ns = .ok client) :
    (RunE GetNamespace NewServingClient waitFlags args w).calls =
        args.map (fun name => (name, deleteTimeout waitFlags)) ∧
    ((RunE GetNamespace NewServingClient waitFlags args w).err = none ↔
        ∀ o ∈ callOutcomes client (deleteTimeout waitFlags) args w, o.2 = none) ∧
    ((¬ ∀ o ∈ callOutcomes client (deleteTimeout waitFlags) args w, o.2 = none) →
      (RunE GetNamespace NewServingClient waitFlags args w).err =
        some (.errorString ("Error: " ++
          stringsJoin (failedMessages (callOutcomes client (deleteTimeout waitFlags) args w))
            "\nError: "))) ∧
    (RunE GetNamespace NewServingClient waitFlags args w).out =
      concatAll ((deletedNames (callOutcomes client (deleteTimeout waitFlags) args w)).map
        (fun name => deletedLine name ns)) := by
  have hlen : ¬ args.length < 1 := by
    cases args with
    | nil => exact absurd rfl hargs
    | cons a l => simp
  obtain ⟨h1, h2, h3⟩ := deleteLoop_spec client waitFlags ns args
    { errs := [], out := "", world := w, calls := [] }
  simp only [List.nil_append, String.empty_append] at h1 h2 h3
  have hiff := failedMessages_eq_nil_iff (callOutcomes client (deleteTimeout waitFlags) args w)
  by_cases hall : ∀ o ∈ callOutcomes client (deleteTimeout waitFlags) args w, o.2 = none
  · have hnil := hiff.mpr hall
    have herrs : ¬ (deleteLoop client waitFlags ns args
        { errs := [], out := "", world := w, calls := [] }).errs.length > 0 := by
      rw [h1, hnil]; simp
    simp only [RunE, hlen, hns, hcl, if_false, herrs]
    exact ⟨h3, ⟨fun _ => hall, fun _ => trivial⟩, fun h => absurd hall h, h2⟩
  · have hne : failedMessages (callOutcomes client (deleteTimeout waitFlags) args w) ≠ [] :=
      fun h => hall (hiff.mp h)
    have herrs : (deleteLoop client waitFlags ns args
        { errs := [], out := "", world := w, calls := [] }).errs.length > 0 := by
      rw [h1]; exact List.length_pos.mpr hne
    simp only [RunE, hlen, hns, hcl, if_false, herrs, if_true]
    refine ⟨h3, ⟨fun h => by simp at h, fun h => absurd h hall⟩, fun _ => ?_, h2⟩
    rw [h1]; rfl

theorem RunE_aggregates_errors_witness :
    (RunE (.ok "default") (fun _ => .ok countingClient) ⟨true, 5⟩ ["a", "bad", "b"] 0).calls =
        [("a", 5000000000), ("bad", 5000000000), ("b", 5000000000)] ∧
    (RunE (.ok "default") (fun _ => .ok countingClient) ⟨true, 5⟩ ["a", "bad", "b"] 0).err =
        some (.errorString "Error: no such revision") ∧
    (RunE (.ok "default") (fun _ => .ok countingClient) ⟨true, 5⟩ ["a", "bad", "b"] 0).out =
        "Revision 'a' deleted in namespace 'default'.\nRevision 'b' deleted in namespace 'default'.\n" := by
  have h := RunE_aggregates_errors (.ok "default") (fun _ => .ok countingClient) ⟨true, 5⟩
    ["a", "bad", "b"] 0 "default" countingClient (by decide) rfl rfl
  refine ⟨?_, ?_, ?_⟩
  · rw [h.1]; decide
  · rw [h.2.2.1 (by decide)]; decide
  · rw [h.2.2.2]; decide

/-! ## The unsupported operations -/

/-- C8: WatchService, WatchRevision, ApplyService, GetConfiguration,
GetRevision, GetBaseRevision, CreateRevision, UpdateRevision, DeleteRevision,
ListRevisions, GetRoute and ListRoutes return, for every argument and every
filesystem state, no result (`false` for ApplyService) and the error with the
message `this operation is not supported in gitops mode`, and leave the
filesystem as it was. -/
theorem unsupported_operations_uniform (cl : knServingGitOpsClient) (fs : Forest)
    (name : String) (timeout : Duration) (svc : Service) (rev : Revision)
    (config : List ListConfig) :
    cl.WatchService name timeout fs =
        ((none, some (.errorString "this operation is not supported in gitops mode")), fs) ∧
    cl.WatchRevision name timeout fs =
        ((none, some (.errorString "this operation is not supported in gitops mode")), fs) ∧
    cl.ApplyService svc fs =
        ((false, some (.errorString "this operation is not supported in gitops mode")), fs) ∧
    cl.GetConfiguration name fs =
        ((none, some (.errorString "this operation is not supported in gitops mode")), fs) ∧
    cl.GetRevision name fs =
        ((none, some (.errorString "this operation is not supported in gitops mode")), fs) ∧
    cl.GetBaseRevision svc fs =
        ((none, some (.errorString "this operation is not supported in gitops mode")), fs) ∧
    cl.CreateRevision rev fs =
        (some (.errorString "this operation is not supported in gitops mode"), fs) ∧
    cl.UpdateRevision rev fs =
        (some (.errorString "this operation is not supported in gitops mode"), fs) ∧
    cl.DeleteRevision name timeout fs =
        (some (.errorString "this operation is not supported in gitops mode"), fs) ∧
    cl.ListRevisions config fs =
        ((none, some (.errorString "this operation is not supported in gitops mode")), fs) ∧
    cl.GetRoute name fs =
        ((none, some (.errorString "this operation is not supported in gitops mode")), fs) ∧
    cl.ListRoutes config fs =
        ((none, some (.errorString "this operation is not supported in gitops mode")), fs) :=
  ⟨rfl, rfl, rfl, rfl, rfl, rfl, rfl, rfl, rfl, rfl, rfl, rfl⟩

/-! ## UpdateService -/

/-- C5: when GetService for the name of the service fails, UpdateService
returns that error and the filesystem is as it was; otherwise UpdateService
returns what CreateService returns and leaves the filesystem CreateService
leaves. -/
theorem UpdateService_is_get_guarded_create (cl : knServingGitOpsClient) (dec : Decoder)
    (service : Service) (fs : Forest) :
    (∀ err, cl.GetService dec fs service.Name = .error err →
      cl.UpdateService dec service fs = (some err, fs)) ∧
    (∀ svc, cl.GetService dec fs service.Name = .ok svc →
      cl.UpdateService dec service fs = cl.CreateService service fs) := by
  refine ⟨?_, ?_⟩
  · intro err h
    simp [knServingGitOpsClient.UpdateService, h]
  · intro svc h
    simp [knServingGitOpsClient.UpdateService, h]

theorem UpdateService_is_get_guarded_create_witness :
    ns1Client.UpdateService lineDecoder svc1Y .nil =
        (some (.notFound "serving.knative.dev" "services" "svc1"), .nil) ∧
    ns1Client.UpdateService lineDecoder svc1Y storeSvc1 = (none, storeSvc1Y) :=
  ⟨(UpdateService_is_get_guarded_create ns1Client lineDecoder svc1Y .nil).1
      (.notFound "serving.knative.dev" "services" "svc1") (by decide),
   ((UpdateService_is_get_guarded_create ns1Client lineDecoder svc1Y storeSvc1).2
      (updateServingGvk svc1) (by decide)).trans (by decide)⟩

/-! ## ListServices at particular trees -/

/-- C1: the store holds `repo/ns1/config.yaml`; `svc1` is created in
namespace `ns1` and CreateService succeeds; ListServices then succeeds with
no item at all, although list completeness asks for exactly `svc1`. Without
the file `config.yaml` the same listing has `svc1`. -/
theorem ListServices_skips_ksvc_after_config :
    ns1Client.CreateService svc1 storeConfigOnly = (none, storeWithConfig) ∧
    ns1Client.ListServices lineDecoder storeWithConfig =
        .ok { APIVersion := "v1", Kind := "List", Items := [] } ∧
    ns1Client.CreateService svc1 .nil = (none, storeSvc1) ∧
    ns1Client.ListServices lineDecoder storeSvc1 =
        .ok { APIVersion := "v1", Kind := "List", Items := [updateServingGvk svc1] } := by
  decide

/-- C9: the file `svc.yaml.bak`, whose name does not end with `.yaml`, is
decoded and adds an item to the listing; the file `notes.yaml.txt` is decoded
too and makes the listing fail. -/
theorem ListServices_decodes_backup_file :
    endsWith "svc.yaml.bak" ".yaml" = false ∧
    ns1Client.ListServices lineDecoder storeBackup =
        .ok { APIVersion := "v1", Kind := "List", Items := [updateServingGvk svc1] } ∧
    endsWith "notes.yaml.txt" ".yaml" = false ∧
    ns1Client.ListServices lineDecoder storeNotes = .error (.codec "cannot unmarshal") := by
  decide

/-- C10: when the scan root does not exist the walk function is called
without file info, reads it all the same, and ListServices ends in a panic:
it returns neither a list nor an error. This is so for a namespace in which
nothing was created yet and for a storage root that does not exist. -/
theorem ListServices_faults_without_root :
    os.Lstat .nil ns1Client.scanRoot = .error (.pathError "lstat" "repo/ns1" .ENOENT) ∧
    listServicesFn lineDecoder .nil [] "repo/ns1" none
        (some (.pathError "lstat" "repo/ns1" .ENOENT)) =
      .fault "invalid memory address or nil pointer dereference" ∧
    ns1Client.ListServices lineDecoder .nil =
        .fault "invalid memory address or nil pointer dereference" ∧
    allClient.ListServices lineDecoder .nil =
        .fault "invalid memory address or nil pointer dereference" := by
  decide

/-! ## Paths that collide -/

/-- C6, as stated, fails: two different pairs of namespace and name share a
file when a name holds a separator, when a namespace is `.`, and when a
namespace is `..` under the storage root `/`. -/
theorem getKsvcFilePath_collisions :
    (("ksvc", "x") : String × String) ≠ ("", "ksvc/x") ∧
    knServingGitOpsClient.getKsvcFilePath ⟨"repo", "ksvc", linePrinter⟩ "x" =
      knServingGitOpsClient.getKsvcFilePath ⟨"repo", "", linePrinter⟩ "ksvc/x" ∧
    ((".", "x") : String × String) ≠ ("", "x") ∧
    knServingGitOpsClient.getKsvcFilePath ⟨"repo", ".", linePrinter⟩ "x" =
      knServingGitOpsClient.getKsvcFilePath ⟨"repo", "", linePrinter⟩ "x" ∧
    (("..", "x") : String × String) ≠ ("", "x") ∧
    knServingGitOpsClient.getKsvcFilePath ⟨"/", "..", linePrinter⟩ "x" =
      knServingGitOpsClient.getKsvcFilePath ⟨"/", "", linePrinter⟩ "x" := by
  decide

/-! ## The filesystem after a write -/

theorem Forest.find_erase_self (name : String) (f : Forest) :
    (f.erase name).find name = none := by
  induction f with
  | nil => rfl
  | file n content rest ih =>
    by_cases h : n = name
    · simp [Forest.erase, h, ih]
    · simp [Forest.erase, Forest.find, h, ih]
  | dir n children rest _ ih =>
    by_cases h : n = name
    · simp [Forest.erase, h, ih]
    · simp [Forest.erase, Forest.find, h, ih]

theorem Forest.find_erase_other (name other : String) (f : Forest) (hne : other ≠ name) :
    (f.erase name).find other = f.find other := by
  induction f with
  | nil => rfl
  | file n content rest ih =>
    by_cases h : n = name
    · subst h
      have hno : ¬ n = other := fun e => hne e.symm
      simp [Forest.erase, Forest.find, ih, hno]
    · by_cases h2 : n = other
      · subst h2
        simp [Forest.erase, Forest.find, h]
      · simp [Forest.erase, Forest.find, h, h2, ih]
  | dir n children rest _ ih =>
    by_cases h : n = name
    · subst h
      have hno : ¬ n = other := fun e => hne e.symm
      simp [Forest.erase, Forest.find, ih, hno]
    · by_cases h2 : n = other
      · subst h2
        simp [Forest.erase, Forest.find, h]
      · simp [Forest.erase, Forest.find, h, h2, ih]

theorem Forest.find_cons_self (name : String) (node : Node) (rest : Forest) :
    (Forest.cons name node rest).find name = some node := by
  cases node <;> simp [Forest.cons, Forest.find]

theorem Forest.find_cons_other (name other : String) (node : Node) (rest : Forest)
    (hne : other ≠ name) : (Forest.cons name node rest).find other = rest.find other := by
  have h : ¬ name = other := fun e => hne e.symm
  cases node <;> simp [Forest.cons, Forest.find, h]

theorem Forest.find_insert_self (name : String) (node : Node) (f : Forest)
    (h : f.find name = none) : (f.insert name node).find name = some node := by
  induction f with
  | nil => simp [Forest.insert, Forest.find_cons_self]
  | file n content rest ih =>
    by_cases hn : n = name
    · simp [Forest.find, hn] at h
    · simp only [Forest.find, hn, if_false] at h
      by_cases hlt : nameLt name n = true
      · simp [Forest.insert, hlt, Forest.find_cons_self]
      · simp [Forest.insert, hlt, Forest.find, hn, ih h]
  | dir n children rest _ ih =>
    by_cases hn : n = name
    · simp [Forest.find, hn] at h
    · simp only [Forest.find, hn, if_false] at h
      by_cases hlt : nameLt name n = true
      · simp [Forest.insert, hlt, Forest.find_cons_self]
      · simp [Forest.insert, hlt, Forest.find, hn, ih h]

theorem Forest.find_insert_other (name other : String) (node : Node) (f : Forest)
    (hne : other ≠ name) : (f.insert name node).find other = f.find other := by
  induction f with
  | nil => simp [Forest.insert, Forest.find_cons_other _ _ _ _ hne]
  | file n content rest ih =>
    by_cases hlt : nameLt name n = true
    · simp [Forest.insert, hlt, Forest.find_cons_other _ _ _ _ hne]
    · simp [Forest.insert, hlt, Forest.find, ih]
  | dir n children rest _ ih =>
    by_cases hlt : nameLt name n = true
    · simp [Forest.insert, hlt, Forest.find_cons_other _ _ _ _ hne]
    · simp [Forest.insert, hlt, Forest.find, ih]

theorem Forest.find_put_self (name : String) (node : Node) (f : Forest) :
    (f.put name node).find name = some node :=
  Forest.find_insert_self name node (f.erase name) (Forest.find_erase_self name f)

theorem Forest.find_put_other (name other : String) (node : Node) (f : Forest)
    (hne : other ≠ name) : (f.put name node).find other = f.find other := by
  unfold Forest.put
  rw [Forest.find_insert_other _ _ _ _ hne, Forest.find_erase_other _ _ _ hne]

theorem Node.lookup_cons_dir (c : String) (cs : List String) (f : Forest) :
    Node.lookup (c :: cs) (.dir f) =
      (match f.find c with
       | none => .error .ENOENT
       | some n => Node.lookup cs n) := by
  simp [Node.lookup]

theorem Node.lookup_file_ne_dir (q : List String) (content : String) (ch : Forest) :
    Node.lookup q (.file content) ≠ .ok (.dir ch) := by
  cases q <;> simp [Node.lookup]

theorem Forest.lookup_writeAt (g : Option Node → Except Errno (Option Node))
    (cs : List String) :
    ∀ (f f2 : Forest), Forest.writeAt g cs f = .ok f2 →
      ∃ r, g (Node.lookup cs (.dir f)).toOption = .ok r ∧
        Node.lookup cs (.dir f2) =
          (match r with
           | some n => .ok n
           | none => .error .ENOENT) := by
  induction cs with
  | nil =>
    intro f f2 h
    simp only [Forest.writeAt] at h
    split at h <;> exact Except.noConfusion h
  | cons c rest ih =>
    intro f f2 h
    cases rest with
    | nil =>
      simp only [Forest.writeAt] at h
      have hold : (Node.lookup [c] (.dir f)).toOption = f.find c := by
        rw [Node.lookup_cons_dir]
        cases f.find c <;> simp [Node.lookup, Except.toOption]
      cases hg : g (f.find c) with
      | error e => rw [hg] at h; exact Except.noConfusion h
      | ok r =>
        rw [hg] at h
        refine ⟨r, by rw [hold]; exact hg, ?_⟩
        cases r with
        | none =>
          simp only [Except.ok.injEq] at h
          subst h
          simp [Node.lookup, Forest.find_erase_self]
        | some n =>
          simp only [Except.ok.injEq] at h
          subst h
          simp [Node.lookup, Forest.find_put_self]
    | cons c2 cs =>
      simp only [Forest.writeAt] at h
      cases hf : f.find c with
      | none => rw [hf] at h; exact Except.noConfusion h
      | some x =>
        rw [hf] at h
        cases x with
        | file content => exact Except.noConfusion h
        | dir children =>
          simp only at h
          cases hw : Forest.writeAt g (c2 :: cs) children with
          | error e => rw [hw] at h; exact Except.noConfusion h
          | ok children2 =>
            rw [hw] at h
            simp only [Except.ok.injEq] at h
            subst h
            obtain ⟨r, hg, hl⟩ := ih children children2 hw
            refine ⟨r, ?_, ?_⟩
            · rw [Node.lookup_cons_dir, hf]; exact hg
            · rw [← hl, Node.lookup_cons_dir, Forest.find_put_self]

theorem Forest.writeAt_const_of_lookup (node : Node) (cs : List String) :
    ∀ (f : Forest) (n : Node), cs ≠ [] → Node.lookup cs (.dir f) = .ok n →
      ∃ f2, Forest.writeAt (fun _ => .ok (some node)) cs f = .ok f2 := by
  induction cs with
  | nil => intro f n h; exact absurd rfl h
  | cons c rest ih =>
    intro f n _ hl
    cases rest with
    | nil => exact ⟨f.put c node, by simp [Forest.writeAt]⟩
    | cons c2 cs =>
      simp only [Node.lookup] at hl
      cases hf : f.find c with
      | none => rw [hf] at hl; exact Except.noConfusion hl
      | some x =>
        rw [hf] at hl
        cases x with
        | file content => simp [Node.lookup] at hl
        | dir children =>
          obtain ⟨ch2, hch⟩ := ih children n (by simp) hl
          exact ⟨f.put c (.dir ch2), by simp [Forest.writeAt, hf, hch]⟩

/-- A write at a place that was not a directory leaves every directory a
directory. -/
theorem Forest.writeAt_preserves_dirs (g : Option Node → Except Errno (Option Node))
    (cur : List String) :
    ∀ (f f2 : Forest), Forest.writeAt g cur f = .ok f2 →
      (∀ ch, Node.lookup cur (.dir f) ≠ .ok (.dir ch)) →
      ∀ (q : List String) (ch : Forest), Node.lookup q (.dir f) = .ok (.dir ch) →
        ∃ ch2, Node.lookup q (.dir f2) = .ok (.dir ch2) := by
  induction cur with
  | nil =>
    intro f f2 h
    simp only [Forest.writeAt] at h
    split at h <;> exact Except.noConfusion h
  | cons c rest ih =>
    intro f f2 h hnd q ch hq
    cases q with
    | nil => exact ⟨f2, rfl⟩
    | cons c' q' =>
      rw [Node.lookup_cons_dir] at hq
      by_cases hc : c' = c
      · subst hc
        cases rest with
        | nil =>
          exfalso
          cases hf : f.find c' with
          | none => rw [hf] at hq; exact Except.noConfusion hq
          | some x =>
            rw [hf] at hq
            cases x with
            | file content => exact Node.lookup_file_ne_dir q' content ch hq
            | dir children =>
              exact hnd children (by rw [Node.lookup_cons_dir, hf]; rfl)
        | cons c2 cs =>
          simp only [Forest.writeAt] at h
          cases hf : f.find c' with
          | none => rw [hf] at h; exact Except.noConfusion h
          | some x =>
            rw [hf] at h hq
            cases x with
            | file content => exact Except.noConfusion h
            | dir children =>
              simp only at h hq
              cases hw : Forest.writeAt g (c2 :: cs) children with
              | error e => rw [hw] at h; exact Except.noConfusion h
              | ok children2 =>
                rw [hw] at h
                simp only [Except.ok.injEq] at h
                subst h
                have hnd2 : ∀ ch, Node.lookup (c2 :: cs) (.dir children) ≠ .ok (.dir ch) := by
                  intro ch3 hl
                  exact hnd ch3 (by rw [Node.lookup_cons_dir, hf]; exact hl)
                obtain ⟨ch2, h2⟩ := ih children children2 hw hnd2 q' ch hq
                exact ⟨ch2, by rw [Node.lookup_cons_dir, Forest.find_put_self]; exact h2⟩
      · have hfind : f2.find c' = f.find c' := by
          cases rest with
          | nil =>
            simp only [Forest.writeAt] at h
            cases hg : g (f.find c) with
            | error e => rw [hg] at h; exact Except.noConfusion h
            | ok r =>
              rw [hg] at h
              cases r with
              | none =>
                simp only [Except.ok.injEq] at h
                subst h
                exact Forest.find_erase_other _ _ _ hc
              | some n =>
                simp only [Except.ok.injEq] at h
                subst h
                exact Forest.find_put_other _ _ _ _ hc
          | cons c2 cs =>
            simp only [Forest.writeAt] at h
            cases hf : f.find c with
            | none => rw [hf] at h; exact Except.noConfusion h
            | some x =>
              rw [hf] at h
              cases x with
              | file content => exact Except.noConfusion h
              | dir children =>
                simp only at h
                cases hw : Forest.writeAt g (c2 :: cs) children with
                | error e => rw [hw] at h; exact Except.noConfusion h
                | ok children2 =>
                  rw [hw] at h
                  simp only [Except.ok.injEq] at h
                  subst h
                  exact Forest.find_put_other _ _ _ _ hc
        exact ⟨ch, by rw [Node.lookup_cons_dir, hfind]; exact hq⟩

/-- After an entry was removed, every directory is still a directory or is
missing. -/
theorem Forest.writeAt_remove_dirs (cur : List String) :
    ∀ (f f2 : Forest), Forest.writeAt removeNode cur f = .ok f2 →
      ∀ (q : List String) (ch : Forest), Node.lookup q (.dir f) = .ok (.dir ch) →
        (∃ ch2, Node.lookup q (.dir f2) = .ok (.dir ch2)) ∨
          Node.lookup q (.dir f2) = .error .ENOENT := by
  induction cur with
  | nil =>
    intro f f2 h
    simp only [Forest.writeAt] at h
    split at h <;> exact Except.noConfusion h
  | cons c rest ih =>
    intro f f2 h q ch hq
    cases q with
    | nil => exact Or.inl ⟨f2, rfl⟩
    | cons c' q' =>
      rw [Node.lookup_cons_dir] at hq
      cases rest with
      | nil =>
        simp only [Forest.writeAt] at h
        cases hg : removeNode (f.find c) with
        | error e => rw [hg] at h; exact Except.noConfusion h
        | ok r =>
          have hr : r = none := by
            unfold removeNode at hg
            split at hg
            · exact Except.noConfusion hg
            · simp only [Except.ok.injEq] at hg; exact hg.symm
            · simp only [Except.ok.injEq] at hg; exact hg.symm
            · exact Except.noConfusion hg
          subst hr
          rw [hg] at h
          simp only [Except.ok.injEq] at h
          subst h
          by_cases hc : c' = c
          · subst hc
            exact Or.inr (by rw [Node.lookup_cons_dir, Forest.find_erase_self])
          · exact Or.inl ⟨ch, by
              rw [Node.lookup_cons_dir, Forest.find_erase_other _ _ _ hc]; exact hq⟩
      | cons c2 cs =>
        simp only [Forest.writeAt] at h
        cases hf : f.find c with
        | none => rw [hf] at h; exact Except.noConfusion h
        | some x =>
          rw [hf] at h
          cases x with
          | file content => exact Except.noConfusion h
          | dir children =>
            simp only at h
            cases hw : Forest.writeAt removeNode (c2 :: cs) children with
            | error e => rw [hw] at h; exact Except.noConfusion h
            | ok children2 =>
              rw [hw] at h
              simp only [Except.ok.injEq] at h
              subst h
              by_cases hc : c' = c
              · subst hc
                rw [hf] at hq
                simp only at hq
                rcases ih children children2 hw q' ch hq with ⟨ch2, h2⟩ | h2
                · exact Or.inl ⟨ch2, by
                    rw [Node.lookup_cons_dir, Forest.find_put_self]; exact h2⟩
                · exact Or.inr (by
                    rw [Node.lookup_cons_dir, Forest.find_put_self]; exact h2)
              · exact Or.inl ⟨ch, by
                  rw [Node.lookup_cons_dir, Forest.find_put_other _ _ _ _ hc]; exact hq⟩

/-- The walk along a path ends at the same place in a tree in which every
directory of the first tree is a directory. -/
theorem Forest.locate_of_dirs (f f2 : Forest)
    (hdir : ∀ (q : List String) (ch : Forest), Node.lookup q (.dir f) = .ok (.dir ch) →
      ∃ ch2, Node.lookup q (.dir f2) = .ok (.dir ch2))
    (elems : List String) :
    ∀ (cur t : List String), f.locate elems cur = .ok t → f2.locate elems cur = .ok t := by
  induction elems with
  | nil => intro cur t h; simpa [Forest.locate] using h
  | cons e rest ih =>
    intro cur t h
    simp only [Forest.locate] at h ⊢
    cases hl : Node.lookup cur (.dir f) with
    | error err => rw [hl] at h; exact Except.noConfusion h
    | ok n =>
      rw [hl] at h
      cases n with
      | file content => exact Except.noConfusion h
      | dir ch =>
        obtain ⟨ch2, h2⟩ := hdir cur ch hl
        rw [h2]
        simp only at h ⊢
        split at h
        · rename_i h1; rw [if_pos h1]; exact ih _ _ h
        · rename_i h1
          rw [if_neg h1]
          split at h
          · rename_i h3; rw [if_pos h3]; exact ih _ _ h
          · rename_i h3
            rw [if_neg h3]
            split at h
            · exact Except.noConfusion h
            · rename_i h4; rw [if_neg h4]; exact ih _ _ h

/-- The walk along a path, in a tree in which every directory of the first
tree is a directory or is missing, ends at the same place or at a missing
entry. -/
theorem Forest.locate_of_dirs_or_missing (f f2 : Forest)
    (hdir : ∀ (q : List String) (ch : Forest), Node.lookup q (.dir f) = .ok (.dir ch) →
      (∃ ch2, Node.lookup q (.dir f2) = .ok (.dir ch2)) ∨
        Node.lookup q (.dir f2) = .error .ENOENT)
    (elems : List String) :
    ∀ (cur t : List String), f.locate elems cur = .ok t →
      f2.locate elems cur = .ok t ∨ f2.locate elems cur = .error .ENOENT := by
  induction elems with
  | nil => intro cur t h; exact Or.inl (by simpa [Forest.locate] using h)
  | cons e rest ih =>
    intro cur t h
    simp only [Forest.locate] at h ⊢
    cases hl : Node.lookup cur (.dir f) with
    | error err => rw [hl] at h; exact Except.noConfusion h
    | ok n =>
      rw [hl] at h
      cases n with
      | file content => exact Except.noConfusion h
      | dir ch =>
        rcases hdir cur ch hl with ⟨ch2, h2⟩ | h2
        · rw [h2]
          simp only at h ⊢
          split at h
          · rename_i h1; rw [if_pos h1]; exact ih _ _ h
          · rename_i h1
            rw [if_neg h1]
            split at h
            · rename_i h3; rw [if_pos h3]; exact ih _ _ h
            · rename_i h3
              rw [if_neg h3]
              split at h
              · exact Except.noConfusion h
              · rename_i h4; rw [if_neg h4]; exact ih _ _ h
        · rw [h2]
          exact Or.inr rfl

theorem os.target_of_dirs (f f2 : Forest) (path : String) (t : List String)
    (hdir : ∀ (q : List String) (ch : Forest), Node.lookup q (.dir f) = .ok (.dir ch) →
      ∃ ch2, Node.lookup q (.dir f2) = .ok (.dir ch2))
    (h : os.target f path = .ok t) : os.target f2 path = .ok t := by
  unfold os.target at h ⊢
  cases hc : os.checkPath path with
  | some e => rw [hc] at h; exact Except.noConfusion h
  | none =>
    rw [hc] at h
    exact Forest.locate_of_dirs f f2 hdir _ _ _ h

theorem os.change_ok (op : String) (g : Option Node → Except Errno (Option Node))
    (fs fs2 : Forest) (path : String) (h : os.change op g fs path = .ok fs2) :
    ∃ cur, os.target fs path = .ok cur ∧ Forest.writeAt g cur fs = .ok fs2 := by
  unfold os.change at h
  cases ht : os.target fs path with
  | error e => rw [ht] at h; exact Except.noConfusion h
  | ok cur =>
    rw [ht] at h
    simp only at h
    cases hw : Forest.writeAt g cur fs with
    | error e => rw [hw] at h; exact Except.noConfusion h
    | ok f1 =>
      rw [hw] at h
      simp only [Except.ok.injEq] at h
      subst h
      exact ⟨cur, rfl, hw⟩

theorem Forest.writeAt_ne_nil (g : Option Node → Except Errno (Option Node))
    (cur : List String) (f f2 : Forest) (h : Forest.writeAt g cur f = .ok f2) : cur ≠ [] := by
  intro hnil
  subst hnil
  simp only [Forest.writeAt] at h
  split at h <;> exact Except.noConfusion h

theorem os.Open_after_Create_Write (fs fs2 : Forest) (path content : String)
    (h : os.Create fs path = .ok fs2) :
    os.Open (os.Write fs2 path content) path = .ok (.file content) := by
  obtain ⟨cur, ht, hw⟩ := os.change_ok _ _ _ _ _ h
  have hne := Forest.writeAt_ne_nil _ _ _ _ hw
  obtain ⟨r, hg, hl⟩ := Forest.lookup_writeAt createNode cur fs fs2 hw
  have hr : r = some (.file "") := by
    unfold createNode at hg
    split at hg
    · exact Except.noConfusion hg
    · simp only [Except.ok.injEq] at hg
      exact hg.symm
  have hnd : ∀ ch, Node.lookup cur (.dir fs) ≠ .ok (.dir ch) := by
    intro ch hch
    rw [hch] at hg
    simp [Except.toOption, createNode] at hg
  subst hr
  simp only at hl
  have ht2 : os.target fs2 path = .ok cur :=
    os.target_of_dirs fs fs2 path cur
      (Forest.writeAt_preserves_dirs createNode cur fs fs2 hw hnd) ht
  obtain ⟨f3, hf3⟩ := Forest.writeAt_const_of_lookup (.file content) cur fs2 (.file "") hne hl
  obtain ⟨r3, hg3, hl3⟩ := Forest.lookup_writeAt _ cur fs2 f3 hf3
  simp only [Except.ok.injEq] at hg3
  subst hg3
  simp only at hl3
  have hnd2 : ∀ ch, Node.lookup cur (.dir fs2) ≠ .ok (.dir ch) := by
    intro ch hch
    rw [hl] at hch
    simp at hch
  have ht3 : os.target f3 path = .ok cur :=
    os.target_of_dirs fs2 f3 path cur
      (Forest.writeAt_preserves_dirs _ cur fs2 f3 hf3 hnd2) ht2
  have hwrite : os.Write fs2 path content = f3 := by
    simp [os.Write, os.change, ht2, hf3]
  rw [hwrite]
  simp [os.Open, os.resolve, os.lookupPath, ht3, hl3]

theorem os.Open_after_Remove (fs fs2 : Forest) (path : String)
    (h : os.Remove fs path = .ok fs2) :
    os.Open fs2 path = .error (.pathError "open" path .ENOENT) := by
  obtain ⟨cur, ht, hw⟩ := os.change_ok _ _ _ _ _ h
  obtain ⟨r, hg, hl⟩ := Forest.lookup_writeAt removeNode cur fs fs2 hw
  have hr : r = none := by
    unfold removeNode at hg
    split at hg
    · exact Except.noConfusion hg
    · simp only [Except.ok.injEq] at hg; exact hg.symm
    · simp only [Except.ok.injEq] at hg; exact hg.symm
    · exact Except.noConfusion hg
  subst hr
  simp only at hl
  unfold os.target at ht
  cases hc : os.checkPath path with
  | some e => rw [hc] at ht; exact Except.noConfusion ht
  | none =>
    rw [hc] at ht
    simp only at ht
    rcases Forest.locate_of_dirs_or_missing fs fs2
      (Forest.writeAt_remove_dirs cur fs fs2 hw) _ _ _ ht with h2 | h2
    · simp [os.Open, os.resolve, os.lookupPath, os.target, hc, h2, hl]
    · simp [os.Open, os.resolve, os.lookupPath, os.target, hc, h2]

/-- C4: when the decoder returns what the printer printed, then after
CreateService succeeded for a service, GetService for its name returns the
service with its spec, name and namespace and with the canonical version and
kind; and after DeleteService then succeeded for the name, GetService returns
the NotFound error for that name. -/
theorem create_get_delete_round_trip (cl : knServingGitOpsClient) (dec : Decoder)
    (o : Service) (fs fs1 : Forest)
    (hcodec : ∀ content, cl.printer (updateServingGvk o) = .ok content →
      dec content = .ok (updateServingGvk o))
    (hcreate : cl.CreateService o fs = (none, fs1)) :
    cl.GetService dec fs1 o.Name =
        .ok { APIVersion := "serving.knative.dev/v1", Kind := "Service", Name := o.Name,
              Namespace := o.Namespace, Spec := o.Spec } ∧
    (∀ timeout fs2, cl.DeleteService o.Name timeout fs1 = (none, fs2) →
      cl.GetService dec fs2 o.Name =
        .error (.notFound "serving.knative.dev" "services" o.Name)) := by
  refine ⟨?_, ?_⟩
  · simp only [knServingGitOpsClient.CreateService] at hcreate
    split at hcreate
    · simp at hcreate
    · rename_i fsa hcr
      cases hp : cl.printer (updateServingGvk o) with
      | error e => rw [hp] at hcreate; simp at hcreate
      | ok content =>
        rw [hp] at hcreate
        simp only [Prod.mk.injEq, true_and] at hcreate
        subst hcreate
        have hopen := os.Open_after_Create_Write _ fsa _ content hcr
        simp [knServingGitOpsClient.GetService, getServiceFromFile, hopen,
          hcodec content hp, updateServingGvk]
  · intro timeout fs2 hdelete
    simp only [knServingGitOpsClient.DeleteService] at hdelete
    cases hr : os.Remove fs1 (cl.getKsvcFilePath o.Name) with
    | error e => rw [hr] at hdelete; simp at hdelete
    | ok f2 =>
      rw [hr] at hdelete
      simp only [Prod.mk.injEq, true_and] at hdelete
      subst hdelete
      have hopen := os.Open_after_Remove fs1 f2 _ hr
      simp [knServingGitOpsClient.GetService, getServiceFromFile, hopen, IsNotExist,
        NewNotFound]

theorem create_get_delete_round_trip_witness :
    ns1Client.CreateService svc1 .nil = (none, storeSvc1) ∧
    ns1Client.DeleteService "svc1" 0 storeSvc1 = (none, storeEmptyKsvc) ∧
    ns1Client.GetService lineDecoder storeSvc1 "svc1" =
        .ok { APIVersion := "serving.knative.dev/v1", Kind := "Service", Name := "svc1",
              Namespace := "ns1", Spec := "X" } ∧
    ns1Client.GetService lineDecoder storeEmptyKsvc "svc1" =
        .error (.notFound "serving.knative.dev" "services" "svc1") :=
  have hcodec : ∀ content, ns1Client.printer (updateServingGvk svc1) = .ok content →
      lineDecoder content = .ok (updateServingGvk svc1) := fun content h => by
    have h2 : ns1Client.printer (updateServingGvk svc1) = .ok svc1Content := by decide
    rw [h2] at h
    simp only [Except.ok.injEq] at h
    rw [← h]
    decide
  ⟨by decide, by decide,
    (create_get_delete_round_trip ns1Client lineDecoder svc1 .nil storeSvc1 hcodec
      (by decide)).1,
    (create_get_delete_round_trip ns1Client lineDecoder svc1 .nil storeSvc1 hcodec
      (by decide)).2 0 storeEmptyKsvc (by decide)⟩

/-! ## Splitting and joining at the separator -/

theorem splitOn_ne_nil (sep : Char) (s : List Char) : splitOn sep s ≠ [] := by
  cases s with
  | nil => simp [splitOn]
  | cons c cs =>
    simp only [splitOn]
    split
    · simp
    · split <;> simp

theorem splitOn_cons_ne (sep c : Char) (cs : List Char) (hc : c ≠ sep) :
    splitOn sep (c :: cs) =
      (match splitOn sep cs with
       | [] => [[c]]
       | h :: t => (c :: h) :: t) := by
  simp [splitOn, hc]

theorem splitOn_append_sep (sep : Char) (a b : List Char) :
    splitOn sep (a ++ sep :: b) = splitOn sep a ++ splitOn sep b := by
  induction a with
  | nil => simp [splitOn]
  | cons c cs ih =>
    by_cases hc : c = sep
    · simp [splitOn, hc, ih]
    · rw [List.cons_append, splitOn_cons_ne sep c _ hc, ih, splitOn_cons_ne sep c _ hc]
      cases hs : splitOn sep cs with
      | nil => exact absurd hs (splitOn_ne_nil sep cs)
      | cons h t => rfl

theorem splitOn_of_not_mem (sep : Char) (a : List Char) (h : sep ∉ a) :
    splitOn sep a = [a] := by
  induction a with
  | nil => rfl
  | cons c cs ih =>
    have hc : c ≠ sep := fun hc => h (by simp [hc])
    have hcs : sep ∉ cs := fun hm => h (List.mem_cons_of_mem _ hm)
    simp [splitOn, hc, ih hcs]

theorem not_mem_of_mem_splitOn (sep : Char) (a : List Char) :
    ∀ piece ∈ splitOn sep a, sep ∉ piece := by
  induction a with
  | nil => intro piece hp; simp [splitOn] at hp; simp [hp]
  | cons c cs ih =>
    intro piece hp
    by_cases hc : c = sep
    · simp only [splitOn, hc, if_true, List.mem_cons] at hp
      rcases hp with hp | hp
      · simp [hp]
      · exact ih piece hp
    · simp only [splitOn, hc, if_false] at hp
      cases hs : splitOn sep cs with
      | nil => exact absurd hs (splitOn_ne_nil sep cs)
      | cons h t =>
        rw [hs] at hp ih
        simp only [List.mem_cons] at hp
        rcases hp with hp | hp
        · subst hp
          have hh := ih h (by simp)
          intro hm
          simp only [List.mem_cons] at hm
          rcases hm with hm | hm
          · exact hc hm.symm
          · exact hh hm
        · exact ih piece (by simp [hp])

theorem splitOn_joinChars (sep : Char) (l : List (List Char)) (hne : l ≠ [])
    (hl : ∀ x ∈ l, sep ∉ x) : splitOn sep (joinChars [sep] l) = l := by
  induction l with
  | nil => exact absurd rfl hne
  | cons a rest ih =>
    cases rest with
    | nil => simpa [joinChars] using splitOn_of_not_mem sep a (hl a (by simp))
    | cons b rest2 =>
      have h1 : joinChars [sep] (a :: b :: rest2) = a ++ sep :: joinChars [sep] (b :: rest2) := by
        simp [joinChars]
      rw [h1, splitOn_append_sep, splitOn_of_not_mem sep a (hl a (by simp)),
        ih (by simp) (fun x hx => hl x (List.mem_cons_of_mem _ hx))]
      rfl

/-! ## The elements of a cleaned path -/

theorem cleanStep_push (rooted : Bool) (stack : List (List Char)) (e : List Char)
    (h1 : e ≠ []) (h2 : e ≠ ['.']) (h3 : e ≠ ['.', '.']) :
    cleanStep rooted stack e = e :: stack := by
  simp [cleanStep, h1, h2, h3]

theorem mem_cleanStep (rooted : Bool) (stack : List (List Char)) (e x : List Char)
    (hx : x ∈ cleanStep rooted stack e) : x ∈ stack ∨ x = e := by
  unfold cleanStep at hx
  split at hx
  · exact Or.inl hx
  · split at hx
    · exact Or.inl hx
    · split at hx
      · split at hx
        · split at hx
          · simp at hx
          · simp only [List.mem_singleton] at hx; exact Or.inr hx
        · split at hx
          · simp only [List.mem_cons] at hx
            rcases hx with hx | hx
            · exact Or.inr hx
            · exact Or.inl (by simpa using hx)
          · exact Or.inl (List.mem_cons_of_mem _ hx)
      · simp only [List.mem_cons] at hx
        rcases hx with hx | hx
        · exact Or.inr hx
        · exact Or.inl hx

theorem mem_foldl_cleanStep (rooted : Bool) (l : List (List Char)) :
    ∀ (stack : List (List Char)) (x : List Char),
      x ∈ l.foldl (cleanStep rooted) stack → x ∈ stack ∨ x ∈ l := by
  induction l with
  | nil => intro stack x hx; exact Or.inl hx
  | cons e rest ih =>
    intro stack x hx
    simp only [List.foldl_cons] at hx
    rcases ih _ x hx with h | h
    · rcases mem_cleanStep rooted stack e x h with h2 | h2
      · exact Or.inl h2
      · exact Or.inr (by simp [h2])
    · exact Or.inr (List.mem_cons_of_mem _ h)

/-! ## The path of a service file -/

theorem Join_of_ne (e : String) (rest : List String) (h : e.data ≠ []) :
    Join (e :: rest) = Clean (stringsJoin (e :: rest) "/") := by
  simp [Join, List.dropWhile, h]

theorem Join_of_empty (e : String) (rest : List String) (h : e.data = []) :
    Join (e :: rest) = Join rest := by
  simp [Join, List.dropWhile, h]

theorem isRooted_append (a b : List Char) (h : a ≠ []) : isRooted (a ++ b) = isRooted a := by
  cases a with
  | nil => exact absurd rfl h
  | cons c cs => rfl

theorem isRooted_of_not_mem (a : List Char) (h : Separator ∉ a) : isRooted a = false := by
  cases a with
  | nil => rfl
  | cons c cs =>
    have hc : c ≠ Separator := fun hc => h (by simp [hc])
    simp [isRooted, hc]

theorem Clean_data_of_stack (P : List Char) (stack : List (List Char)) (hP : P ≠ [])
    (hs : (splitOn Separator P).foldl (cleanStep (isRooted P)) [] = stack)
    (hlen : 2 ≤ stack.length) (hfree : ∀ x ∈ stack, Separator ∉ x) :
    (Clean (String.mk P)).data =
      (if isRooted P then [Separator] else []) ++ joinChars [Separator] stack.reverse := by
  have hjoin : joinChars [Separator] stack.reverse ≠ [] := by
    intro hnil
    have hsp := splitOn_joinChars Separator stack.reverse
      (by intro h; simp at h; simp [h] at hlen)
      (fun x hx => hfree x (by simpa using hx))
    rw [hnil] at hsp
    have hl : (splitOn Separator []).length = stack.reverse.length := by rw [hsp]
    simp [splitOn] at hl
    omega
  have hcc : cleanChars P =
      (if isRooted P then [Separator] else []) ++ joinChars [Separator] stack.reverse := by
    simp [cleanChars, cleanElems, hs]
  have hne : cleanChars P ≠ [] := by
    rw [hcc]
    intro h
    exact hjoin (List.append_eq_nil.mp h).2
  unfold Clean
  rw [if_neg (by simpa using hP), if_neg (by simpa using hne)]
  exact hcc

theorem cleanStep_yaml (rooted : Bool) (stack : List (List Char)) (n : List Char) :
    cleanStep rooted stack (n ++ ".yaml".data) = (n ++ ".yaml".data) :: stack := by
  have hy1 : n ++ ".yaml".data ≠ [] := by simp
  have hy2 : n ++ ".yaml".data ≠ ['.'] := by
    intro h
    have := congrArg List.length h
    simp at this
  have hy3 : n ++ ".yaml".data ≠ ['.', '.'] := by
    intro h
    have := congrArg List.length h
    simp at this
  exact cleanStep_push rooted _ _ hy1 hy2 hy3

theorem cleanStep_ksvc (rooted : Bool) (stack : List (List Char)) :
    cleanStep rooted stack "ksvc".data = "ksvc".data :: stack :=
  cleanStep_push rooted _ "ksvc".data (by decide) (by decide) (by decide)

theorem foldl_cleanStep_ksvc (rooted : Bool) (D : List (List Char)) (ns n : List Char)
    (hns2 : ns ≠ ['.']) (hns3 : ns ≠ ['.', '.']) :
    (D ++ [ns, "ksvc".data, n ++ ".yaml".data]).foldl (cleanStep rooted) [] =
      (n ++ ".yaml".data) :: "ksvc".data ::
        ((if ns = [] then [] else [ns]) ++ D.foldl (cleanStep rooted) []) := by
  rw [List.foldl_append]
  simp only [List.foldl_cons, List.foldl_nil]
  rw [cleanStep_yaml, cleanStep_ksvc]
  by_cases hns : ns = []
  · simp [hns, cleanStep]
  · rw [cleanStep_push rooted _ ns hns hns2 hns3]
    simp [hns]

theorem stringsJoin_data_four (a b c d : String) :
    (stringsJoin [a, b, c, d] "/").data =
      a.data ++ Separator :: (b.data ++ Separator :: (c.data ++ Separator :: d.data)) := by
  simp [stringsJoin, joinChars, Separator]

theorem stringsJoin_data_three (b c d : String) :
    (stringsJoin [b, c, d] "/").data =
      b.data ++ Separator :: (c.data ++ Separator :: d.data) := by
  simp [stringsJoin, joinChars, Separator]

theorem stringsJoin_data_two (c d : String) :
    (stringsJoin [c, d] "/").data = c.data ++ Separator :: d.data := by
  simp [stringsJoin, joinChars, Separator]

theorem yaml_not_mem (n : List Char) (hn : Separator ∉ n) :
    Separator ∉ n ++ ".yaml".data := by
  intro h
  rcases List.mem_append.mp h with h | h
  · exact hn h
  · revert h; decide

theorem ksvc_stack_free (rooted : Bool) (d ns n : List Char)
    (hns1 : Separator ∉ ns) (hn : Separator ∉ n) :
    ∀ x ∈ (n ++ ".yaml".data) :: "ksvc".data ::
        ((if ns = [] then [] else [ns]) ++
          (splitOn Separator d).foldl (cleanStep rooted) []),
      Separator ∉ x := by
  intro x hx
  simp only [List.mem_cons, List.mem_append] at hx
  rcases hx with hx | hx | hx | hx
  · rw [hx]; exact yaml_not_mem n hn
  · rw [hx]; decide
  · by_cases hns : ns = []
    · simp [hns] at hx
    · simp only [hns, if_false, List.mem_singleton] at hx
      rw [hx]; exact hns1
  · rcases mem_foldl_cleanStep rooted _ _ x hx with h | h
    · simp at h
    · exact not_mem_of_mem_splitOn Separator d x h

theorem getKsvcFilePath_data (d ns n : String) (printer : Service → Except GoError String)
    (hns1 : Separator ∉ ns.data) (hns2 : ns.data ≠ ['.']) (hns3 : ns.data ≠ ['.', '.'])
    (hn : Separator ∉ n.data) :
    (knServingGitOpsClient.getKsvcFilePath ⟨d, ns, printer⟩ n).data =
      (if isRooted d.data then [Separator] else []) ++
        joinChars [Separator]
          ((n.data ++ ".yaml".data) :: "ksvc".data ::
            ((if ns.data = [] then [] else [ns.data]) ++
              (splitOn Separator d.data).foldl (cleanStep (isRooted d.data)) [])).reverse := by
  have hfree := ksvc_stack_free (isRooted d.data) d.data ns.data n.data hns1 hn
  have hk : splitOn Separator "ksvc".data = ["ksvc".data] := by decide
  have hy : splitOn Separator (n.data ++ ".yaml".data) = [n.data ++ ".yaml".data] :=
    splitOn_of_not_mem _ _ (yaml_not_mem n.data hn)
  have hnsp : splitOn Separator ns.data = [ns.data] := splitOn_of_not_mem _ _ hns1
  simp only [knServingGitOpsClient.getKsvcFilePath, ksvc_kind]
  by_cases hd : d.data = []
  · rw [Join_of_empty d _ hd]
    have hroot : isRooted d.data = false := by rw [hd]; rfl
    have hD : (splitOn Separator d.data).foldl (cleanStep false) [] = [] := by
      rw [hd]; rfl
    rw [hroot] at hfree ⊢
    rw [hD] at hfree ⊢
    by_cases hns : ns.data = []
    · rw [Join_of_empty ns _ hns, Join_of_ne "ksvc" _ (by decide)]
      have hP : stringsJoin ["ksvc", n ++ ".yaml"] "/" =
          String.mk ("ksvc".data ++ Separator :: (n.data ++ ".yaml".data)) :=
        String.ext (by rw [stringsJoin_data_two, String.data_append])
      rw [hP]
      have hr : isRooted ("ksvc".data ++ Separator :: (n.data ++ ".yaml".data)) = false := rfl
      have := Clean_data_of_stack ("ksvc".data ++ Separator :: (n.data ++ ".yaml".data))
        ((n.data ++ ".yaml".data) :: "ksvc".data :: ((if ns.data = [] then [] else [ns.data]) ++ []))
        (by simp)
        (by
          rw [hr, splitOn_append_sep, hk, hy]
          simp only [List.singleton_append, List.foldl_cons, List.foldl_nil]
          rw [cleanStep_ksvc, cleanStep_yaml]
          simp [hns])
        (by simp) hfree
      rw [this, hr]
    · rw [Join_of_ne ns _ hns]
      have hP : stringsJoin [ns, "ksvc", n ++ ".yaml"] "/" =
          String.mk (ns.data ++ Separator ::
            ("ksvc".data ++ Separator :: (n.data ++ ".yaml".data))) :=
        String.ext (by rw [stringsJoin_data_three, String.data_append])
      rw [hP]
      have hr : isRooted (ns.data ++ Separator ::
          ("ksvc".data ++ Separator :: (n.data ++ ".yaml".data))) = false := by
        rw [isRooted_append _ _ hns]; exact isRooted_of_not_mem _ hns1
      have := Clean_data_of_stack (ns.data ++ Separator ::
          ("ksvc".data ++ Separator :: (n.data ++ ".yaml".data)))
        ((n.data ++ ".yaml".data) :: "ksvc".data :: ((if ns.data = [] then [] else [ns.data]) ++ []))
        (by simp [hns])
        (by
          rw [hr, splitOn_append_sep, splitOn_append_sep, hk, hy, hnsp]
          have := foldl_cleanStep_ksvc false [] ns.data n.data hns2 hns3
          simpa using this)
        (by simp) hfree
      rw [this, hr]
  · rw [Join_of_ne d _ hd]
    have hP : stringsJoin [d, ns, "ksvc", n ++ ".yaml"] "/" =
        String.mk (d.data ++ Separator :: (ns.data ++ Separator ::
          ("ksvc".data ++ Separator :: (n.data ++ ".yaml".data)))) :=
      String.ext (by rw [stringsJoin_data_four, String.data_append])
    rw [hP]
    have hr : isRooted (d.data ++ Separator :: (ns.data ++ Separator ::
          ("ksvc".data ++ Separator :: (n.data ++ ".yaml".data)))) = isRooted d.data :=
      isRooted_append _ _ hd
    have := Clean_data_of_stack (d.data ++ Separator :: (ns.data ++ Separator ::
          ("ksvc".data ++ Separator :: (n.data ++ ".yaml".data))))
      ((n.data ++ ".yaml".data) :: "ksvc".data :: ((if ns.data = [] then [] else [ns.data]) ++
        (splitOn Separator d.data).foldl (cleanStep (isRooted d.data)) []))
      (by simp [hd])
      (by
        rw [hr, splitOn_append_sep, splitOn_append_sep, splitOn_append_sep, hk, hy, hnsp]
        have := foldl_cleanStep_ksvc (isRooted d.data) (splitOn Separator d.data)
          ns.data n.data hns2 hns3
        simpa using this)
      (by simp) hfree
    rw [this, hr]

theorem data_ne_of_ne (s : String) (l : List Char) (h : s ≠ String.mk l) : s.data ≠ l :=
  fun hd => h (String.ext hd)

/-- C6, amended: for a fixed storage root the path of a service file depends
on the namespace and the name only, and two different pairs of namespace and
name have different paths when neither the namespaces nor the names hold a
path separator and no namespace is `.` or `..`. -/
theorem getKsvcFilePath_injective (d : String) (p1 p2 : Service → Except GoError String)
    (ns1 n1 ns2 n2 : String)
    (h1 : Separator ∉ ns1.data) (h1a : ns1 ≠ ".") (h1b : ns1 ≠ "..")
    (h2 : Separator ∉ ns2.data) (h2a : ns2 ≠ ".") (h2b : ns2 ≠ "..")
    (hn1 : Separator ∉ n1.data) (hn2 : Separator ∉ n2.data)
    (hne : (ns1, n1) ≠ (ns2, n2)) :
    knServingGitOpsClient.getKsvcFilePath ⟨d, ns1, p1⟩ n1 =
        knServingGitOpsClient.getKsvcFilePath ⟨d, ns1, p2⟩ n1 ∧
    knServingGitOpsClient.getKsvcFilePath ⟨d, ns1, p1⟩ n1 ≠
        knServingGitOpsClient.getKsvcFilePath ⟨d, ns2, p2⟩ n2 := by
  refine ⟨rfl, ?_⟩
  intro h
  apply hne
  have hd := congrArg String.data h
  rw [getKsvcFilePath_data d ns1 n1 p1 h1 (data_ne_of_ne _ _ h1a) (data_ne_of_ne _ _ h1b) hn1,
    getKsvcFilePath_data d ns2 n2 p2 h2 (data_ne_of_ne _ _ h2a) (data_ne_of_ne _ _ h2b) hn2] at hd
  have hj := List.append_cancel_left hd
  have hf1 := ksvc_stack_free (isRooted d.data) d.data ns1.data n1.data h1 hn1
  have hf2 := ksvc_stack_free (isRooted d.data) d.data ns2.data n2.data h2 hn2
  have hs := congrArg (splitOn Separator) hj
  rw [splitOn_joinChars Separator _ (by simp) (fun x hx => hf1 x (List.mem_reverse.mp hx)),
    splitOn_joinChars Separator _ (by simp) (fun x hx => hf2 x (List.mem_reverse.mp hx))] at hs
  have hl := List.reverse_injective hs
  simp only [List.cons.injEq, true_and] at hl
  obtain ⟨hy, hrest⟩ := hl
  have hn : n1 = n2 := String.ext (List.append_cancel_right hy)
  have hns := List.append_cancel_right hrest
  have hnsd : ns1.data = ns2.data := by
    by_cases e1 : ns1.data = []
    · by_cases e2 : ns2.data = []
      · rw [e1, e2]
      · simp [e1, e2] at hns
    · by_cases e2 : ns2.data = []
      · simp [e1, e2] at hns
      · simpa [e1, e2] using hns
  rw [String.ext hnsd, hn]

theorem getKsvcFilePath_injective_witness :
    knServingGitOpsClient.getKsvcFilePath ⟨"repo", "ns1", linePrinter⟩ "svc1" =
        knServingGitOpsClient.getKsvcFilePath ⟨"repo", "ns1", linePrinter⟩ "svc1" ∧
    knServingGitOpsClient.getKsvcFilePath ⟨"repo", "ns1", linePrinter⟩ "svc1" ≠
        knServingGitOpsClient.getKsvcFilePath ⟨"repo", "", linePrinter⟩ "ns1" :=
  getKsvcFilePath_injective "repo" linePrinter linePrinter "ns1" "svc1" "" "ns1"
    (by decide) (by decide) (by decide) (by decide) (by decide) (by decide)
    (by decide) (by decide) (by decide)

/-! ## Two walks side by side -/

theorem walkNames_related {σ τ : Type} (R : σ → τ → Prop) (fn1 : WalkFunc σ)
    (fn2 : WalkFunc τ)
    (hfn : ∀ st1 st2 path info err, R st1 st2 →
      Step.related R (fn1 st1 path info err) (fn2 st2 path info err))
    (f : Forest) :
    ∀ (path : String) (st1 : σ) (st2 : τ), R st1 st2 →
      Step.related R (walkNames fn1 path f st1) (walkNames fn2 path f st2) := by
  induction f with
  | nil =>
    intro path st1 st2 hR
    exact ⟨hR, rfl⟩
  | file name content rest ih =>
    intro path st1 st2 hR
    have h := hfn st1 st2 (Join [path, name]) (some ⟨name, false⟩) none hR
    simp only [walkNames]
    cases h1 : fn1 st1 (Join [path, name]) (some ⟨name, false⟩) none with
    | fault m =>
      cases h2 : fn2 st2 (Join [path, name]) (some ⟨name, false⟩) none with
      | fault m2 => rw [h1, h2] at h; exact h
      | done b e2 => rw [h1, h2] at h; exact h.elim
    | done a e =>
      cases h2 : fn2 st2 (Join [path, name]) (some ⟨name, false⟩) none with
      | fault m2 => rw [h1, h2] at h; exact h.elim
      | done b e2 =>
        rw [h1, h2] at h
        obtain ⟨hab, he⟩ := h
        subst he
        cases e with
        | none => exact ih path a b hab
        | some err => exact ⟨hab, rfl⟩
  | dir name children rest ihc ihr =>
    intro path st1 st2 hR
    have h := hfn st1 st2 (Join [path, name]) (some ⟨name, true⟩) none hR
    simp only [walkNames]
    cases h1 : fn1 st1 (Join [path, name]) (some ⟨name, true⟩) none with
    | fault m =>
      cases h2 : fn2 st2 (Join [path, name]) (some ⟨name, true⟩) none with
      | fault m2 => rw [h1, h2] at h; exact h
      | done b e2 => rw [h1, h2] at h; exact h.elim
    | done a e =>
      cases h2 : fn2 st2 (Join [path, name]) (some ⟨name, true⟩) none with
      | fault m2 => rw [h1, h2] at h; exact h.elim
      | done b e2 =>
        rw [h1, h2] at h
        obtain ⟨hab, he⟩ := h
        subst he
        cases e with
        | some err =>
          simp only
          split
          · exact ihr path a b hab
          · exact ⟨hab, rfl⟩
        | none =>
          simp only
          have hsub := ihc (Join [path, name]) a b hab
          cases h3 : walkNames fn1 (Join [path, name]) children a with
          | fault m =>
            cases h4 : walkNames fn2 (Join [path, name]) children b with
            | fault m2 => rw [h3, h4] at hsub; exact hsub
            | done b2 e4 => rw [h3, h4] at hsub; exact hsub.elim
          | done a2 e3 =>
            cases h4 : walkNames fn2 (Join [path, name]) children b with
            | fault m2 => rw [h3, h4] at hsub; exact hsub.elim
            | done b2 e4 =>
              rw [h3, h4] at hsub
              obtain ⟨hab2, he2⟩ := hsub
              subst he2
              cases e3 with
              | none => exact ihr path a2 b2 hab2
              | some err =>
                simp only
                split
                · exact ihr path a2 b2 hab2
                · exact ⟨hab2, rfl⟩

theorem walkRoot_related {σ τ : Type} (R : σ → τ → Prop) (fn1 : WalkFunc σ)
    (fn2 : WalkFunc τ)
    (hfn : ∀ st1 st2 path info err, R st1 st2 →
      Step.related R (fn1 st1 path info err) (fn2 st2 path info err))
    (path : String) (node : Node) (st1 : σ) (st2 : τ) (hR : R st1 st2) :
    Step.related R (walkRoot fn1 path node st1) (walkRoot fn2 path node st2) := by
  cases node with
  | file content => exact hfn st1 st2 path _ none hR
  | dir children =>
    have h := hfn st1 st2 path (some ⟨basename path, true⟩) none hR
    simp only [walkRoot]
    cases h1 : fn1 st1 path (some ⟨basename path, true⟩) none with
    | fault m =>
      cases h2 : fn2 st2 path (some ⟨basename path, true⟩) none with
      | fault m2 => rw [h1, h2] at h; exact h
      | done b e2 => rw [h1, h2] at h; exact h.elim
    | done a e =>
      cases h2 : fn2 st2 path (some ⟨basename path, true⟩) none with
      | fault m2 => rw [h1, h2] at h; exact h.elim
      | done b e2 =>
        rw [h1, h2] at h
        obtain ⟨hab, he⟩ := h
        subst he
        cases e with
        | some err => exact ⟨hab, rfl⟩
        | none => exact walkNames_related R fn1 fn2 hfn children path a b hab

theorem Walk_related {σ τ : Type} (R : σ → τ → Prop) (fn1 : WalkFunc σ)
    (fn2 : WalkFunc τ)
    (hfn : ∀ st1 st2 path info err, R st1 st2 →
      Step.related R (fn1 st1 path info err) (fn2 st2 path info err))
    (fs : Forest) (root : String) (st1 : σ) (st2 : τ) (hR : R st1 st2) :
    Step.related R (Walk fs root fn1 st1) (Walk fs root fn2 st2) := by
  have hr : Step.related R
      (match os.Lstat fs root with
        | .error err => fn1 st1 root none (some err)
        | .ok node => walkRoot fn1 root node st1)
      (match os.Lstat fs root with
        | .error err => fn2 st2 root none (some err)
        | .ok node => walkRoot fn2 root node st2) := by
    cases os.Lstat fs root with
    | error err => exact hfn st1 st2 root none _ hR
    | ok node => exact walkRoot_related R fn1 fn2 hfn root node st1 st2 hR
  simp only [Walk]
  cases h1 : (match os.Lstat fs root with
        | .error err => fn1 st1 root none (some err)
        | .ok node => walkRoot fn1 root node st1) with
  | fault m =>
    cases h2 : (match os.Lstat fs root with
        | .error err => fn2 st2 root none (some err)
        | .ok node => walkRoot fn2 root node st2) with
    | fault m2 => rw [h1, h2] at hr; exact hr
    | done b e2 => rw [h1, h2] at hr; exact hr.elim
  | done a e =>
    cases h2 : (match os.Lstat fs root with
        | .error err => fn2 st2 root none (some err)
        | .ok node => walkRoot fn2 root node st2) with
    | fault m2 => rw [h1, h2] at hr; exact hr.elim
    | done b e2 =>
      rw [h1, h2] at hr
      obtain ⟨hab, he⟩ := hr
      subst he
      cases e with
      | none => exact ⟨hab, rfl⟩
      | some err =>
        simp only
        split
        · exact ⟨hab, rfl⟩
        · exact ⟨hab, rfl⟩

/-- One call of the walk function of `ListServices` and of the one with the
record agree, and the record keeps its properties: the slices are equal,
every recorded path contains `ksvc`, and the slice is what the recorded paths
decode to. -/
theorem listServicesFn_traced (dec : Decoder) (fs : Forest) (st1 : List Service)
    (st2 : List Service × List String) (path : String) (info : Option FileInfo)
    (err : Option GoError)
    (hR : st1 = st2.1 ∧ (∀ p ∈ st2.2, Contains p ksvc_kind = true) ∧
      st2.1 = st2.2.filterMap (decodeAt dec fs)) :
    Step.related
      (fun (a : List Service) (b : List Service × List String) =>
        a = b.1 ∧ (∀ p ∈ b.2, Contains p ksvc_kind = true) ∧
          b.1 = b.2.filterMap (decodeAt dec fs))
      (listServicesFn dec fs st1 path info err)
      (listServicesTraceFn dec fs st2 path info err) := by
  obtain ⟨h1, h2, h3⟩ := hR
  cases info with
  | none => exact rfl
  | some info =>
    simp only [listServicesFn, listServicesTraceFn]
    split
    · exact ⟨⟨h1, h2, h3⟩, rfl⟩
    · split
      · exact ⟨⟨h1, h2, h3⟩, rfl⟩
      · split
        · exact ⟨⟨h1, h2, h3⟩, rfl⟩
        · rename_i hk
          have hk2 : Contains path ksvc_kind = true := by simpa using hk
          have hmem : ∀ p ∈ st2.2 ++ [path], Contains p ksvc_kind = true := by
            intro p hp
            rcases List.mem_append.mp hp with hp | hp
            · exact h2 p hp
            · simp only [List.mem_singleton] at hp
              rw [hp]; exact hk2
          cases hget : getServiceFromFile dec fs path "" with
          | error e =>
            refine ⟨⟨h1, hmem, ?_⟩, rfl⟩
            simp [List.filterMap_append, decodeAt, hget, ← h3]
          | ok svc =>
            refine ⟨⟨by rw [h1], hmem, ?_⟩, rfl⟩
            simp [List.filterMap_append, decodeAt, hget, ← h3]

/-- C2, amended: whatever the tree and whether the listing succeeds or fails,
ListServices hands to the decoder only files whose own full path, as the walk
reached it from the scan root, contains `ksvc`; ListServices is the run with
the record of those paths, with the record dropped; and the items of a
listing that succeeds are the services decoded from the recorded paths, in
the order of the walk. So no object decoded from a file whose path does not
contain `ksvc` is in the result. -/
theorem ListServices_decodes_only_ksvc_paths (cl : knServingGitOpsClient) (dec : Decoder)
    (fs : Forest) :
    (cl.ListServicesTrace dec fs).1 = cl.ListServices dec fs ∧
    (∀ p ∈ (cl.ListServicesTrace dec fs).2, Contains p ksvc_kind = true) ∧
    (∀ list, cl.ListServices dec fs = .ok list →
      list.Items = (cl.ListServicesTrace dec fs).2.filterMap (decodeAt dec fs)) := by
  have h := Walk_related
    (fun (a : List Service) (b : List Service × List String) =>
      a = b.1 ∧ (∀ p ∈ b.2, Contains p ksvc_kind = true) ∧
        b.1 = b.2.filterMap (decodeAt dec fs))
    (listServicesFn dec fs) (listServicesTraceFn dec fs)
    (fun st1 st2 path info err hR => listServicesFn_traced dec fs st1 st2 path info err hR)
    fs cl.scanRoot [] ([], []) ⟨rfl, by simp, by simp⟩
  simp only [knServingGitOpsClient.ListServicesTrace, knServingGitOpsClient.ListServices]
  cases h1 : Walk fs cl.scanRoot (listServicesFn dec fs) [] with
  | fault m =>
    cases h2 : Walk fs cl.scanRoot (listServicesTraceFn dec fs) ([], []) with
    | fault m2 =>
      rw [h1, h2] at h
      have hm : m = m2 := h
      subst hm
      exact ⟨rfl, by simp, by intro list hl; exact Outcome.noConfusion hl⟩
    | done b e2 => rw [h1, h2] at h; exact h.elim
  | done a e =>
    cases h2 : Walk fs cl.scanRoot (listServicesTraceFn dec fs) ([], []) with
    | fault m2 => rw [h1, h2] at h; exact h.elim
    | done b e2 =>
      rw [h1, h2] at h
      obtain ⟨⟨hab, hk, hdec⟩, he⟩ := h
      subst he
      subst hab
      cases e with
      | some err =>
        exact ⟨rfl, hk, by intro list hl; exact Outcome.noConfusion hl⟩
      | none =>
        refine ⟨rfl, hk, ?_⟩
        intro list hl
        simp only [Outcome.ok.injEq] at hl
        rw [← hl]
        exact hdec

theorem ListServices_decodes_only_ksvc_paths_witness :
    (ns1Client.ListServicesTrace lineDecoder storeWithConfig).2 = [] ∧
    ns1Client.ListServicesTrace lineDecoder storeDecoyYaml =
        (.ok { APIVersion := "v1", Kind := "List", Items := [] }, []) ∧
    (ns1Client.ListServicesTrace lineDecoder storeNotes).1 =
        ns1Client.ListServices lineDecoder storeNotes ∧
    (∀ p ∈ (ns1Client.ListServicesTrace lineDecoder storeNotes).2,
        Contains p ksvc_kind = true) ∧
    ({ APIVersion := "v1", Kind := "List", Items := [updateServingGvk svc1] } :
        ServiceList).Items =
      (allClient.ListServicesTrace lineDecoder storeSvc1).2.filterMap
        (decodeAt lineDecoder storeSvc1) :=
  ⟨by decide, by decide,
    (ListServices_decodes_only_ksvc_paths ns1Client lineDecoder storeNotes).1,
    (ListServices_decodes_only_ksvc_paths ns1Client lineDecoder storeNotes).2.1,
    (ListServices_decodes_only_ksvc_paths allClient lineDecoder storeSvc1).2.2
      { APIVersion := "v1", Kind := "List", Items := [updateServingGvk svc1] } (by decide)⟩

/-- C2, as stated, fails. In a listing over all namespaces the scan root is
`repo`; the directory `repo/ns1` lies strictly below it and its path does not
contain `ksvc`; the service file `repo/ns1/ksvc/svc1.yaml` lies beneath it and
the object decoded from it is in the result, as the layout asks. The same
happens below the directory `repo/ns1/decoy` of the namespace `ns1`, whose
only file lies at `repo/ns1/decoy/ksvc/x.yaml`. -/
theorem ListServices_lists_below_non_ksvc_dir :
    allClient.scanRoot = "repo" ∧
    Contains "repo/ns1" ksvc_kind = false ∧
    os.Lstat storeSvc1 "repo/ns1" =
        .ok (.dir (.dir "ksvc" (.file "svc1.yaml" svc1Content .nil) .nil)) ∧
    (allClient.ListServicesTrace lineDecoder storeSvc1).2 = ["repo/ns1/ksvc/svc1.yaml"] ∧
    allClient.ListServices lineDecoder storeSvc1 =
        .ok { APIVersion := "v1", Kind := "List", Items := [updateServingGvk svc1] } ∧
    ns1Client.scanRoot = "repo/ns1" ∧
    Contains "repo/ns1/decoy" ksvc_kind = false ∧
    os.Lstat storeDecoy "repo/ns1/decoy" =
        .ok (.dir (.dir "ksvc" (.file "x.yaml" svc1Content .nil) .nil)) ∧
    (ns1Client.ListServicesTrace lineDecoder storeDecoy).2 =
        ["repo/ns1/decoy/ksvc/x.yaml"] ∧
    ns1Client.ListServices lineDecoder storeDecoy =
        .ok { APIVersion := "v1", Kind := "List", Items := [updateServingGvk svc1] } := by
  decide

/-! ## The elements of the path of a service file -/

theorem joinChars_append_last_ne_nil (sep : List Char) (hsep : sep ≠ []) (top : List Char)
    (htop : top ≠ []) (L : List (List Char)) : joinChars sep (L ++ [top]) ≠ [] := by
  cases L with
  | nil => simpa [joinChars] using htop
  | cons a rest =>
    cases hr : rest ++ [top] with
    | nil => simp at hr
    | cons b r =>
      rw [List.cons_append, hr]
      simp [joinChars, hsep]

theorem foldl_cleanStep_free (rooted : Bool) (P : List Char) :
    ∀ x ∈ (splitOn Separator P).foldl (cleanStep rooted) [], Separator ∉ x := by
  intro x hx
  rcases mem_foldl_cleanStep rooted _ _ x hx with h | h
  · simp at h
  · exact not_mem_of_mem_splitOn Separator P x h

theorem Clean_mk_of_top (P : List Char) (top : List Char) (S : List (List Char))
    (hP : P ≠ [])
    (hs : (splitOn Separator P).foldl (cleanStep (isRooted P)) [] = top :: S)
    (htop : top ≠ []) :
    Clean (String.mk P) =
      String.mk ((if isRooted P then [Separator] else []) ++
        joinChars [Separator] (S.reverse ++ [top])) := by
  have hcc : cleanChars P =
      (if isRooted P then [Separator] else []) ++ joinChars [Separator] (S.reverse ++ [top]) := by
    simp [cleanChars, cleanElems, hs]
  have hne : cleanChars P ≠ [] := by
    rw [hcc]
    intro h
    exact joinChars_append_last_ne_nil [Separator] (by simp) top htop _
      (List.append_eq_nil.mp h).2
  unfold Clean
  rw [if_neg (by simpa using hP), if_neg (by simpa using hne), hcc]

theorem pathElems_rendered (r : Bool) (L : List (List Char)) (hne : L ≠ [])
    (hfree : ∀ x ∈ L, Separator ∉ x) :
    pathElems (String.mk ((if r then [Separator] else []) ++ joinChars [Separator] L)) =
      (if r then [""] else []) ++ L.map String.mk := by
  have hs := splitOn_joinChars Separator L hne hfree
  cases r with
  | false => simp [pathElems, hs]
  | true =>
    have h2 : splitOn Separator (Separator :: joinChars [Separator] L) =
        [] :: splitOn Separator (joinChars [Separator] L) := by
      simp [splitOn]
    simp only [pathElems, if_true, List.singleton_append, h2, hs, List.map_cons]

theorem pathElems_Clean (P : List Char) (top : List Char) (S : List (List Char))
    (hP : P ≠ [])
    (hs : (splitOn Separator P).foldl (cleanStep (isRooted P)) [] = top :: S)
    (htop : top ≠ []) :
    pathElems (Clean (String.mk P)) =
      (if isRooted P then [""] else []) ++ (S.reverse ++ [top]).map String.mk := by
  rw [Clean_mk_of_top P top S hP hs htop]
  refine pathElems_rendered _ _ (by simp) ?_
  intro x hx
  have hfree := foldl_cleanStep_free (isRooted P) P
  rw [hs] at hfree
  refine hfree x ?_
  rcases List.mem_append.mp hx with h | h
  · exact List.mem_cons_of_mem _ (List.mem_reverse.mp h)
  · simp only [List.mem_singleton] at h
    simp [h]

theorem splitOn_append_free (sep : Char) (t : List Char) (ht : sep ∉ t) (a : List Char) :
    ∃ init lp, splitOn sep (a ++ t) = init ++ [lp ++ t] := by
  induction a with
  | nil => exact ⟨[], [], by simpa using splitOn_of_not_mem sep t ht⟩
  | cons c cs ih =>
    obtain ⟨init, lp, h⟩ := ih
    by_cases hc : c = sep
    · exact ⟨[] :: init, lp, by simp [splitOn, hc, h]⟩
    · rw [List.cons_append, splitOn_cons_ne sep c _ hc, h]
      cases init with
      | nil => exact ⟨[], c :: lp, rfl⟩
      | cons i rest => exact ⟨(c :: i) :: rest, lp, rfl⟩

/-- The path of a service file is the cleaned form of a string that ends with
a separator, the name and `.yaml`. -/
theorem getKsvcFilePath_form (cl : knServingGitOpsClient) (name : String) :
    ∃ X : List Char, cl.getKsvcFilePath name =
      Clean (String.mk (X ++ Separator :: (name.data ++ ".yaml".data))) := by
  simp only [knServingGitOpsClient.getKsvcFilePath, ksvc_kind]
  by_cases hd : cl.dir.data = []
  · rw [Join_of_empty _ _ hd]
    by_cases hns : cl.namespace_.data = []
    · rw [Join_of_empty _ _ hns, Join_of_ne "ksvc" _ (by decide)]
      have hS : stringsJoin ["ksvc", name ++ ".yaml"] "/" =
          String.mk ("ksvc".data ++ Separator :: (name.data ++ ".yaml".data)) :=
        String.ext (by rw [stringsJoin_data_two, String.data_append])
      exact ⟨"ksvc".data, by rw [hS]⟩
    · rw [Join_of_ne _ _ hns]
      have hS : stringsJoin [cl.namespace_, "ksvc", name ++ ".yaml"] "/" =
          String.mk ((cl.namespace_.data ++ Separator :: "ksvc".data) ++
            Separator :: (name.data ++ ".yaml".data)) :=
        String.ext (by
          rw [stringsJoin_data_three, String.data_append]; simp [List.append_assoc])
      exact ⟨cl.namespace_.data ++ Separator :: "ksvc".data, by rw [hS]⟩
  · rw [Join_of_ne _ _ hd]
    have hS : stringsJoin [cl.dir, cl.namespace_, "ksvc", name ++ ".yaml"] "/" =
        String.mk ((cl.dir.data ++ Separator :: (cl.namespace_.data ++ Separator :: "ksvc".data))
          ++ Separator :: (name.data ++ ".yaml".data)) :=
      String.ext (by
        rw [stringsJoin_data_four, String.data_append]; simp [List.append_assoc])
    exact ⟨cl.dir.data ++ Separator :: (cl.namespace_.data ++ Separator :: "ksvc".data),
      by rw [hS]⟩

/-- The last element of the path of a service file is a name that ends with
`.yaml`. -/
theorem pathElems_getKsvcFilePath (cl : knServingGitOpsClient) (name : String) :
    ∃ (front : List String) (lp : List Char),
      pathElems (cl.getKsvcFilePath name) = front ++ [String.mk (lp ++ ".yaml".data)] := by
  obtain ⟨X, hX⟩ := getKsvcFilePath_form cl name
  obtain ⟨init, lp, hsp⟩ := splitOn_append_free Separator ".yaml".data (by decide) name.data
  have hfold : (splitOn Separator (X ++ Separator :: (name.data ++ ".yaml".data))).foldl
      (cleanStep (isRooted (X ++ Separator :: (name.data ++ ".yaml".data)))) [] =
      (lp ++ ".yaml".data) ::
        (splitOn Separator X ++ init).foldl
          (cleanStep (isRooted (X ++ Separator :: (name.data ++ ".yaml".data)))) [] := by
    rw [splitOn_append_sep, hsp, ← List.append_assoc, List.foldl_append]
    simp only [List.foldl_cons, List.foldl_nil]
    exact cleanStep_yaml _ _ lp
  have h := pathElems_Clean _ _ _ (by simp) hfold (by simp)
  rw [hX, h]
  refine ⟨(if isRooted (X ++ Separator :: (name.data ++ ".yaml".data)) then [""] else []) ++
    (((splitOn Separator X ++ init).foldl
      (cleanStep (isRooted (X ++ Separator :: (name.data ++ ".yaml".data)))) []).reverse).map
        String.mk, lp, ?_⟩
  simp [List.append_assoc]

theorem yaml_name_plain (lp : List Char) :
    String.mk (lp ++ ".yaml".data) ≠ "" ∧ String.mk (lp ++ ".yaml".data) ≠ "." ∧
      String.mk (lp ++ ".yaml".data) ≠ ".." := by
  refine ⟨?_, ?_, ?_⟩ <;>
  · intro h
    have h2 := congrArg (fun s => s.data.length) h
    simp at h2

/-! ## The walk along a path in the empty tree -/

theorem Forest.locate_nil_below (L : List String) (c : String) (cs : List String) :
    Forest.nil.locate L (c :: cs) = (if L = [] then .ok (c :: cs) else .error .ENOENT) := by
  cases L with
  | nil => rfl
  | cons e rest => simp [Forest.locate, Node.lookup, Forest.find]

theorem Forest.locate_nil_root (L : List String) (hfit : ∀ e ∈ L, byteLen e ≤ NAME_MAX)
    (hplain : ∃ e ∈ L, e ≠ "" ∧ e ≠ "." ∧ e ≠ "..") :
    Forest.nil.locate L [] = .error .ENOENT ∨ ∃ e, Forest.nil.locate L [] = .ok [e] := by
  induction L with
  | nil => obtain ⟨e, he, _⟩ := hplain; simp at he
  | cons e rest ih =>
    have hfit2 : ∀ x ∈ rest, byteLen x ≤ NAME_MAX :=
      fun x hx => hfit x (List.mem_cons_of_mem _ hx)
    by_cases h1 : e = "" ∨ e = "."
    · have hp2 : ∃ x ∈ rest, x ≠ "" ∧ x ≠ "." ∧ x ≠ ".." := by
        obtain ⟨x, hx, hx1, hx2, hx3⟩ := hplain
        rcases List.mem_cons.mp hx with hx | hx
        · subst hx
          rcases h1 with h1 | h1
          · exact absurd h1 hx1
          · exact absurd h1 hx2
        · exact ⟨x, hx, hx1, hx2, hx3⟩
      simpa [Forest.locate, Node.lookup, h1] using ih hfit2 hp2
    · by_cases h2 : e = ".."
      · have hp2 : ∃ x ∈ rest, x ≠ "" ∧ x ≠ "." ∧ x ≠ ".." := by
          obtain ⟨x, hx, hx1, hx2, hx3⟩ := hplain
          rcases List.mem_cons.mp hx with hx | hx
          · subst hx; exact absurd h2 hx3
          · exact ⟨x, hx, hx1, hx2, hx3⟩
        have := ih hfit2 hp2
        simpa [Forest.locate, Node.lookup, h1, h2] using this
      · have hlen : ¬ byteLen e > NAME_MAX := by
          have := hfit e (by simp)
          omega
        have hstep : Forest.nil.locate (e :: rest) [] = Forest.nil.locate rest [e] := by
          simp only [Forest.locate, Node.lookup]
          rw [if_neg h1, if_neg h2, if_neg hlen]
          rfl
        rw [hstep, Forest.locate_nil_below]
        by_cases hr : rest = []
        · exact Or.inr ⟨e, by simp [hr]⟩
        · exact Or.inl (by simp [hr])

/-- In the empty tree no path of a service file leads anywhere: the walk ends
at a missing entry. -/
theorem os.lookupPath_nil_getKsvcFilePath (cl : knServingGitOpsClient) (name : String)
    (hvalid : os.checkPath (cl.getKsvcFilePath name) = none)
    (hfit : ∀ e ∈ pathElems (cl.getKsvcFilePath name), byteLen e ≤ NAME_MAX) :
    os.lookupPath .nil (cl.getKsvcFilePath name) = .error .ENOENT := by
  obtain ⟨front, lp, hel⟩ := pathElems_getKsvcFilePath cl name
  have hplain : ∃ e ∈ pathElems (cl.getKsvcFilePath name), e ≠ "" ∧ e ≠ "." ∧ e ≠ ".." :=
    ⟨String.mk (lp ++ ".yaml".data), by rw [hel]; simp, yaml_name_plain lp⟩
  unfold os.lookupPath os.target
  rw [hvalid]
  rcases Forest.locate_nil_root _ hfit hplain with h | ⟨e, h⟩
  · simp [h]
  · simp [h, Node.lookup, Forest.find]

/-! ## A missing entry in the directory of the services -/

theorem Node.lookup_append (e : String) (c : List String) :
    ∀ n : Node, Node.lookup (c ++ [e]) n =
      (match Node.lookup c n with
       | .error err => .error err
       | .ok (.file _) => .error .ENOTDIR
       | .ok (.dir ch) =>
         match ch.find e with
         | none => .error .ENOENT
         | some x => .ok x) := by
  induction c with
  | nil =>
    intro n
    cases n with
    | file content => rfl
    | dir f =>
      cases hf : f.find e <;> simp [Node.lookup, hf]
  | cons a rest ih =>
    intro n
    cases n with
    | file content => rfl
    | dir f =>
      simp only [List.cons_append, Node.lookup]
      cases f.find a with
      | none => rfl
      | some y => exact ih y

theorem Forest.locate_append_plain (f : Forest) (e : String)
    (h1 : ¬ (e = "" ∨ e = ".")) (h2 : e ≠ "..") (h3 : ¬ byteLen e > NAME_MAX)
    (L : List String) :
    ∀ cur : List String, f.locate (L ++ [e]) cur =
      (match f.locate L cur with
       | .error err => .error err
       | .ok c =>
         match Node.lookup c (.dir f) with
         | .error err => .error err
         | .ok (.file _) => .error .ENOTDIR
         | .ok (.dir _) => .ok (c ++ [e])) := by
  induction L with
  | nil =>
    intro cur
    simp only [List.nil_append, Forest.locate]
    cases Node.lookup cur (.dir f) with
    | error err => rfl
    | ok n =>
      cases n with
      | file content => rfl
      | dir ch => simp only [if_neg h1, if_neg h2, if_neg h3]
  | cons x rest ih =>
    intro cur
    simp only [List.cons_append, Forest.locate]
    cases Node.lookup cur (.dir f) with
    | error err => rfl
    | ok n =>
      cases n with
      | file content => rfl
      | dir ch =>
        simp only
        split
        · exact ih _
        · split
          · exact ih _
          · split
            · rfl
            · exact ih _

theorem stringsJoin_data_one (c : String) : (stringsJoin [c] "/").data = c.data := by
  simp [stringsJoin, joinChars]

/-- The directory of the services and the file of a service: the second path
is the cleaned form of the first string, a separator, the name and `.yaml`. -/
theorem ksvc_dir_form (cl : knServingGitOpsClient) (name : String) :
    ∃ (P : List Char) (S : List (List Char)), P ≠ [] ∧
      Join [cl.dir, cl.namespace_, ksvc_kind] = Clean (String.mk P) ∧
      (splitOn Separator P).foldl (cleanStep (isRooted P)) [] = "ksvc".data :: S ∧
      cl.getKsvcFilePath name =
        Clean (String.mk (P ++ Separator :: (name.data ++ ".yaml".data))) := by
  have hk : splitOn Separator "ksvc".data = ["ksvc".data] := by decide
  simp only [knServingGitOpsClient.getKsvcFilePath, ksvc_kind]
  by_cases hd : cl.dir.data = []
  · rw [Join_of_empty _ _ hd, Join_of_empty cl.dir _ hd]
    by_cases hns : cl.namespace_.data = []
    · rw [Join_of_empty _ _ hns, Join_of_empty cl.namespace_ _ hns,
        Join_of_ne "ksvc" _ (by decide), Join_of_ne "ksvc" _ (by decide)]
      have hS1 : stringsJoin ["ksvc"] "/" = String.mk "ksvc".data :=
        String.ext (by rw [stringsJoin_data_one])
      have hS2 : stringsJoin ["ksvc", name ++ ".yaml"] "/" =
          String.mk ("ksvc".data ++ Separator :: (name.data ++ ".yaml".data)) :=
        String.ext (by rw [stringsJoin_data_two, String.data_append])
      refine ⟨"ksvc".data, [], by decide, by rw [hS1], ?_, by rw [hS2]⟩
      rw [hk]
      simp only [List.foldl_cons, List.foldl_nil]
      exact cleanStep_ksvc _ _
    · rw [Join_of_ne _ _ hns, Join_of_ne _ _ hns]
      have hS1 : stringsJoin [cl.namespace_, "ksvc"] "/" =
          String.mk (cl.namespace_.data ++ Separator :: "ksvc".data) :=
        String.ext (by rw [stringsJoin_data_two])
      have hS2 : stringsJoin [cl.namespace_, "ksvc", name ++ ".yaml"] "/" =
          String.mk ((cl.namespace_.data ++ Separator :: "ksvc".data) ++
            Separator :: (name.data ++ ".yaml".data)) :=
        String.ext (by
          rw [stringsJoin_data_three, String.data_append]; simp [List.append_assoc])
      refine ⟨cl.namespace_.data ++ Separator :: "ksvc".data,
        (splitOn Separator cl.namespace_.data).foldl
          (cleanStep (isRooted (cl.namespace_.data ++ Separator :: "ksvc".data))) [],
        by simp, by rw [hS1], ?_, by rw [hS2]⟩
      rw [splitOn_append_sep, hk, List.foldl_append]
      simp only [List.foldl_cons, List.foldl_nil]
      exact cleanStep_ksvc _ _
  · rw [Join_of_ne _ _ hd, Join_of_ne _ _ hd]
    have hS1 : stringsJoin [cl.dir, cl.namespace_, "ksvc"] "/" =
        String.mk (cl.dir.data ++ Separator :: (cl.namespace_.data ++ Separator :: "ksvc".data)) :=
      String.ext (by rw [stringsJoin_data_three])
    have hS2 : stringsJoin [cl.dir, cl.namespace_, "ksvc", name ++ ".yaml"] "/" =
        String.mk ((cl.dir.data ++ Separator :: (cl.namespace_.data ++ Separator :: "ksvc".data))
          ++ Separator :: (name.data ++ ".yaml".data)) :=
      String.ext (by
        rw [stringsJoin_data_four, String.data_append]; simp [List.append_assoc])
    refine ⟨cl.dir.data ++ Separator :: (cl.namespace_.data ++ Separator :: "ksvc".data),
      (splitOn Separator cl.dir.data ++ splitOn Separator cl.namespace_.data).foldl
        (cleanStep (isRooted
          (cl.dir.data ++ Separator :: (cl.namespace_.data ++ Separator :: "ksvc".data)))) [],
      by simp, by rw [hS1], ?_, by rw [hS2]⟩
    rw [splitOn_append_sep, splitOn_append_sep, hk, ← List.append_assoc, List.foldl_append]
    simp only [List.foldl_cons, List.foldl_nil]
    exact cleanStep_ksvc _ _

/-- For a name without a separator the elements of the path of its file are
those of the directory of the services and then the file name. -/
theorem pathElems_getKsvcFilePath_plain (cl : knServingGitOpsClient) (name : String)
    (hsep : Separator ∉ name.data) :
    pathElems (cl.getKsvcFilePath name) =
      pathElems (Join [cl.dir, cl.namespace_, ksvc_kind]) ++ [name ++ ".yaml"] := by
  obtain ⟨P, S, hP, hdir, hfold, hfile⟩ := ksvc_dir_form cl name
  have hroot : isRooted (P ++ Separator :: (name.data ++ ".yaml".data)) = isRooted P :=
    isRooted_append _ _ hP
  have hy : splitOn Separator (name.data ++ ".yaml".data) = [name.data ++ ".yaml".data] :=
    splitOn_of_not_mem _ _ (yaml_not_mem name.data hsep)
  have hfold2 : (splitOn Separator (P ++ Separator :: (name.data ++ ".yaml".data))).foldl
      (cleanStep (isRooted (P ++ Separator :: (name.data ++ ".yaml".data)))) [] =
      (name.data ++ ".yaml".data) :: ("ksvc".data :: S) := by
    rw [hroot, splitOn_append_sep, hy, List.foldl_append, hfold]
    simp only [List.foldl_cons, List.foldl_nil]
    exact cleanStep_yaml _ _ _
  rw [hfile, hdir, pathElems_Clean _ _ _ (by simp) hfold2 (by simp),
    pathElems_Clean _ _ _ hP hfold (by decide), hroot]
  have hname : String.mk (name.data ++ ".yaml".data) = name ++ ".yaml" :=
    String.ext (by rw [String.data_append])
  simp [List.append_assoc, hname]

/-- When the directory of the services exists and has no entry for the file
of a name, the walk to that file ends at a missing entry. -/
theorem os.lookupPath_of_no_entry (cl : knServingGitOpsClient) (fs ch : Forest)
    (name : String) (hsep : Separator ∉ name.data)
    (hfit : byteLen (name ++ ".yaml") ≤ NAME_MAX)
    (hvalid : os.checkPath (cl.getKsvcFilePath name) = none)
    (hdir : os.lookupPath fs (Join [cl.dir, cl.namespace_, ksvc_kind]) = .ok (.dir ch))
    (hno : ch.find (name ++ ".yaml") = none) :
    os.lookupPath fs (cl.getKsvcFilePath name) = .error .ENOENT := by
  have hplain := yaml_name_plain name.data
  have hname : String.mk (name.data ++ ".yaml".data) = name ++ ".yaml" :=
    String.ext (by rw [String.data_append])
  rw [hname] at hplain
  unfold os.lookupPath os.target at hdir
  cases hc : os.checkPath (Join [cl.dir, cl.namespace_, ksvc_kind]) with
  | some e => rw [hc] at hdir; exact Except.noConfusion hdir
  | none =>
    rw [hc] at hdir
    simp only at hdir
    cases hl : fs.locate (pathElems (Join [cl.dir, cl.namespace_, ksvc_kind])) [] with
    | error e => rw [hl] at hdir; exact Except.noConfusion hdir
    | ok c =>
      rw [hl] at hdir
      simp only at hdir
      unfold os.lookupPath os.target
      rw [hvalid, pathElems_getKsvcFilePath_plain cl name hsep,
        Forest.locate_append_plain fs _ (by
          intro h
          rcases h with h | h
          · exact hplain.1 h
          · exact hplain.2.1 h) hplain.2.2 (by omega), hl]
      simp only [hdir]
      rw [Node.lookup_append, hdir]
      simp only [hno]

/-! ## GetService -/

theorem GetService_of_lookupPath_ENOENT (cl : knServingGitOpsClient) (dec : Decoder)
    (fs : Forest) (name : String)
    (h : os.lookupPath fs (cl.getKsvcFilePath name) = .error .ENOENT) :
    cl.GetService dec fs name = .error (.notFound "serving.knative.dev" "services" name) := by
  simp [knServingGitOpsClient.GetService, getServiceFromFile, os.Open, os.resolve, h,
    IsNotExist, NewNotFound]

/-- C3, amended: for every store state and every name, when the walk along
the path resolved for the name ends at a missing entry (the error ENOENT),
GetService returns the NotFound error of the resource `services` with exactly
that name. This is so on the empty store for every client and every name
whose path is valid, and whenever the directory of the services exists and
has no entry for the file of a name without a separator. When no file exists
at the path for another reason (a regular file stands where a directory is
needed, the name holds a NUL byte, an element is too long) the error of
opening the file is returned as it is; so are the error of reading a
directory that stands at the path and any error of the decoder. -/
theorem GetService_notFound_when_missing (cl : knServingGitOpsClient) (dec : Decoder)
    (fs : Forest) (name : String) :
    (os.lookupPath fs (cl.getKsvcFilePath name) = .error .ENOENT →
      cl.GetService dec fs name =
        .error (.notFound "serving.knative.dev" "services" name)) ∧
    (os.checkPath (cl.getKsvcFilePath name) = none →
      (∀ e ∈ pathElems (cl.getKsvcFilePath name), byteLen e ≤ NAME_MAX) →
      cl.GetService dec .nil name =
        .error (.notFound "serving.knative.dev" "services" name)) ∧
    (∀ ch, Separator ∉ name.data → byteLen (name ++ ".yaml") ≤ NAME_MAX →
      os.checkPath (cl.getKsvcFilePath name) = none →
      os.Stat fs (Join [cl.dir, cl.namespace_, ksvc_kind]) = .ok (.dir ch) →
      ch.find (name ++ ".yaml") = none →
      cl.GetService dec fs name =
        .error (.notFound "serving.knative.dev" "services" name)) ∧
    (∀ e, os.lookupPath fs (cl.getKsvcFilePath name) = .error e → e ≠ .ENOENT →
      cl.GetService dec fs name = .error (.pathError "open" (cl.getKsvcFilePath name) e)) ∧
    (∀ ch, os.lookupPath fs (cl.getKsvcFilePath name) = .ok (.dir ch) →
      cl.GetService dec fs name =
        .error (.pathError "read" (cl.getKsvcFilePath name) .EISDIR)) ∧
    (∀ content err, os.lookupPath fs (cl.getKsvcFilePath name) = .ok (.file content) →
      dec content = .error err → cl.GetService dec fs name = .error err) := by
  refine ⟨GetService_of_lookupPath_ENOENT cl dec fs name, ?_, ?_, ?_, ?_, ?_⟩
  · intro hvalid hfit
    exact GetService_of_lookupPath_ENOENT cl dec .nil name
      (os.lookupPath_nil_getKsvcFilePath cl name hvalid hfit)
  · intro ch hsep hfit hvalid hstat hno
    have hdir : os.lookupPath fs (Join [cl.dir, cl.namespace_, ksvc_kind]) = .ok (.dir ch) := by
      simp only [os.Stat, os.resolve] at hstat
      cases hl : os.lookupPath fs (Join [cl.dir, cl.namespace_, ksvc_kind]) with
      | error e => rw [hl] at hstat; exact Except.noConfusion hstat
      | ok n =>
        rw [hl] at hstat
        simp only [Except.ok.injEq] at hstat
        rw [hstat]
    exact GetService_of_lookupPath_ENOENT cl dec fs name
      (os.lookupPath_of_no_entry cl fs ch name hsep hfit hvalid hdir hno)
  · intro e h hne
    cases e <;>
      first
      | exact absurd rfl hne
      | simp [knServingGitOpsClient.GetService, getServiceFromFile, os.Open, os.resolve, h,
          IsNotExist]
  · intro ch h
    simp [knServingGitOpsClient.GetService, getServiceFromFile, os.Open, os.resolve, h]
  · intro content err h hdec
    simp [knServingGitOpsClient.GetService, getServiceFromFile, os.Open, os.resolve, h, hdec]

theorem GetService_notFound_when_missing_witness :
    ns1Client.GetService lineDecoder storeSvc1 "missing" =
        .error (.notFound "serving.knative.dev" "services" "missing") ∧
    ns1Client.GetService lineDecoder .nil "missing" =
        .error (.notFound "serving.knative.dev" "services" "missing") ∧
    ns1Client.GetService lineDecoder storeEmptyKsvc "missing" =
        .error (.notFound "serving.knative.dev" "services" "missing") ∧
    ns1Client.GetService lineDecoder storeKsvcIsFile "missing" =
        .error (.pathError "open" (ns1Client.getKsvcFilePath "missing") .ENOTDIR) ∧
    ns1Client.GetService lineDecoder storeYamlDir "x" =
        .error (.pathError "read" (ns1Client.getKsvcFilePath "x") .EISDIR) ∧
    ns1Client.GetService lineDecoder storeBroken "broken" =
        .error (.codec "cannot unmarshal") :=
  ⟨(GetService_notFound_when_missing ns1Client lineDecoder storeSvc1 "missing").1 (by decide),
   (GetService_notFound_when_missing ns1Client lineDecoder .nil "missing").2.1
      (by decide) (by decide),
   (GetService_notFound_when_missing ns1Client lineDecoder storeEmptyKsvc "missing").2.2.1
      .nil (by decide) (by decide) (by decide) (by decide) (by decide),
   (GetService_notFound_when_missing ns1Client lineDecoder storeKsvcIsFile "missing").2.2.2.1
      .ENOTDIR (by decide) (by decide),
   (GetService_notFound_when_missing ns1Client lineDecoder storeYamlDir "x").2.2.2.2.1
      .nil (by decide),
   (GetService_notFound_when_missing ns1Client lineDecoder storeBroken "broken").2.2.2.2.2
      "garbage" (.codec "cannot unmarshal") (by decide) (by decide)⟩

/-- C3, as stated, fails. In the store in which `repo/ns1/ksvc` is a regular
file nothing exists at `repo/ns1/ksvc/missing.yaml`, and GetService returns
the error of opening the file, which says `not a directory`, not NotFound. On
the empty store, where no file exists at all, GetService for a name with a
NUL byte returns the error `invalid argument`, not NotFound. -/
theorem GetService_not_notFound_without_file :
    os.Lstat storeKsvcIsFile "repo/ns1/ksvc/missing.yaml" =
        .error (.pathError "lstat" "repo/ns1/ksvc/missing.yaml" .ENOTDIR) ∧
    ns1Client.GetService lineDecoder storeKsvcIsFile "missing" =
        .error (.pathError "open" "repo/ns1/ksvc/missing.yaml" .ENOTDIR) ∧
    IsNotExist (.pathError "open" "repo/ns1/ksvc/missing.yaml" .ENOTDIR) = false ∧
    ns1Client.GetService lineDecoder .nil "a\x00b" =
        .error (.pathError "open" "repo/ns1/ksvc/a\x00b.yaml" .EINVAL) := by
  decide

end GitOps
